import Mathlib

/-!
# Host driver of the Pippenger MSM accelerator

A shallow embedding of `src/zprize/msm_pippenger/host/driver/driver.cpp`:

* the chunk planner (`calc_log_max_num_points_per_chunk`, `Driver.num_input_chunks`,
  `Driver.num_points_in_last_chunk`, `Driver.get_num_points_in_chunk`);
* the bucket reducer (`Driver.postProcess`);
* the pipeline orchestrator (`Driver.run_asynchronous`), as a function that produces the
  sequence of commands the host issues.

`uint64_t` values are natural numbers below `2 ^ 64`; every operation of the chunk planner
wraps explicitly.
-/

namespace MsmDriver

/-! ## Machine arithmetic on `uint64_t` -/

/-- The number of values of a `uint64_t`. -/
def UINT64_SIZE : Nat := 2 ^ 64

/-- Addition of two `uint64_t` values. -/
def add64 (a b : Nat) : Nat := (a + b) % UINT64_SIZE

/-- Subtraction of two `uint64_t` values (wraps below zero). -/
def sub64 (a b : Nat) : Nat := (a + (UINT64_SIZE - b % UINT64_SIZE)) % UINT64_SIZE

/-- Multiplication of two `uint64_t` values. -/
def mul64 (a b : Nat) : Nat := (a * b) % UINT64_SIZE

/-- Left shift `a << k` of a `uint64_t`, for a shift count below the width. -/
def shl64 (a k : Nat) : Nat := (a * 2 ^ k) % UINT64_SIZE

/-- Right shift `a >> k` of a `uint64_t`. -/
def shr64 (a k : Nat) : Nat := a / 2 ^ k

/-! ## Chunk planner -/

/-- The constant `max_allowed_num_chunks` of `calc_log_max_num_points_per_chunk`. -/
def max_allowed_num_chunks : Nat := 4

/-- The `while` loop of `calc_log_max_num_points_per_chunk`, started with the exponent `log`:
`while (max_allowed_num_chunks * (1ull << log) < npoints) log++`.
A shift count of 64 or more is undefined in the source and gives `none`; `fuel` bounds the
number of tests of the loop condition. -/
def calc_log_loop (npoints : Nat) : Nat → Nat → Option Nat
  | 0, _ => none
  | fuel + 1, log =>
    if 64 ≤ log then none
    else if mul64 max_allowed_num_chunks (shl64 1 log) < npoints then
      calc_log_loop npoints fuel (add64 log 1)
    else some log

/-- The function `calc_log_max_num_points_per_chunk(uint64_t npoints)`: the exponent starts at
18 and the loop runs until four chunks of `2 ^ log` points cover `npoints`. Starting at 18 the
loop condition is tested at most 46 times with a defined shift, so 64 tests are never used up.
The result is returned as a `uint32_t`. -/
def calc_log_max_num_points_per_chunk (npoints : Nat) : Option Nat :=
  (calc_log_loop npoints 64 18).map (fun log => log % 2 ^ 32)

/-- The two members of `class Driver` the chunk planner reads. -/
structure Driver where
  log_max_num_points_per_chunk : Nat
  total_num_points : Nat
  deriving DecidableEq, Repr

/-- The members the constructor `Driver(rust_points, npoints)` initialises, for `npoints`
already converted to `uint64_t`: `total_num_points` and the exponent of the chunk size. There is
no check of `npoints`. The staging vectors of the initialiser list (`npoints *
UINT32_PER_INPUT_POINT` and `npoints * UINT32_PER_INPUT_SCALAR` words) are not modelled, and
their allocation throws for a size that cannot be served: `some d` gives the members of the
driver when the construction returns, it does not say that it returns. `none` is the undefined
shift in `calc_log_max_num_points_per_chunk`. -/
def Driver.new (npoints : Nat) : Option Driver :=
  (calc_log_max_num_points_per_chunk npoints).map
    (fun log => { log_max_num_points_per_chunk := log, total_num_points := npoints })

/-- The method `max_num_points_per_chunk()`: `1ull << log_max_num_points_per_chunk`. -/
def Driver.max_num_points_per_chunk (d : Driver) : Nat :=
  shl64 1 d.log_max_num_points_per_chunk

/-- The method `num_input_chunks()`:
`(total_num_points + max_num_points_per_chunk() - 1) >> log_max_num_points_per_chunk`. -/
def Driver.num_input_chunks (d : Driver) : Nat :=
  shr64 (sub64 (add64 d.total_num_points d.max_num_points_per_chunk) 1)
    d.log_max_num_points_per_chunk

/-- The method `num_points_in_last_chunk()`:
`total_num_points - ((num_input_chunks() - 1) << log_max_num_points_per_chunk)`. -/
def Driver.num_points_in_last_chunk (d : Driver) : Nat :=
  sub64 d.total_num_points (shl64 (sub64 d.num_input_chunks 1) d.log_max_num_points_per_chunk)

/-- The method `get_num_points_in_chunk(chunk_index)`. -/
def Driver.get_num_points_in_chunk (d : Driver) (chunk_index : Nat) : Nat :=
  if chunk_index = sub64 d.num_input_chunks 1 then d.num_points_in_last_chunk
  else d.max_num_points_per_chunk

/-! ## Bucket reducer

The curve library (`bls12_377_g1`) is not part of the sources. Points are elements of a group
`G`; a raw output buffer is a function from a word offset to the point that
`import_from_fpga_vector` followed by `postComputeFPGA` decodes there. The counters
`point_idx` and `bit_offset` count entries of a buffer in host memory and bits of a scalar, and
are kept as natural numbers. -/

/-- The macro `DDR_BITS`. -/
def DDR_BITS : Nat := 512

/-- The constant `NUM_32B_WORDS_PER_OUTPUT = BYTES_PER_OUTPUT / 4` of `postProcess`, with the
macros `BYTES_PER_OUTPUT` and `BITS_PER_OUTPUT_POINT` (`377 * 4`) expanded as the preprocessor
does. -/
def NUM_32B_WORDS_PER_OUTPUT : Nat :=
  (((377 * 4 + DDR_BITS - 1) / DDR_BITS) * DDR_BITS) / 8 / 4

/-- The macro `NUM_OUTPUT_POINTS`. -/
def NUM_OUTPUT_POINTS : Nat := 90091

/-- The window layout `bls12_377_g1::NUM_WINDOWS`, `NUM_WINDOW_BITS(w)`, `NUM_BUCKETS(w)`. Its
declaration is in a header outside the sources, so the reducer takes it as a parameter. -/
structure WindowLayout where
  NUM_WINDOWS : Nat
  NUM_WINDOW_BITS : Nat → Nat
  NUM_BUCKETS : Nat → Nat

/-- The accumulators of `struct PostProcessingValues` (the temporaries `temps` of the point
addition are left out). -/
structure PostProcessingValues (G : Type) where
  accum : G
  running : G
  bucket_sum : G
  final_result : G

/-- Modelled from the spec: `bls12_377_g1::triangleSumUpdate(accum, running, bucket_sum, temps)`
is defined outside the sources; the spec gives it as `running += bucket_sum` followed by
`accum += running`. The result is the new pair `(accum, running)`. -/
def triangleSumUpdate {G : Type} [AddMonoid G] (accum running bucket_sum : G) : G × G :=
  let running := running + bucket_sum
  (accum + running, running)

/-- Modelled from the spec: `bls12_377_g1::finalSumUpdate(final_result, accum, bit_offset, temps)`
is defined outside the sources; the spec gives it as adding `accum` scaled by `2 ^ bit_offset`
into the final result. -/
def finalSumUpdate {G : Type} [AddMonoid G] (final_result accum : G) (bit_offset : Nat) : G :=
  final_result + (2 ^ bit_offset) • accum

/-- One read of the raw output buffer: the word offset read from, and the window and bucket
index the loops are at. -/
structure BucketRead where
  word_offset : Nat
  window_idx : Nat
  bucket_idx : Nat
  deriving DecidableEq, Repr

/-- The local state of `postProcess`: the accumulators, `bit_offset`, `point_idx`, and the log
of the reads of the raw buffer. -/
structure ReducerState (G : Type) where
  values : PostProcessingValues G
  bit_offset : Nat
  point_idx : Nat
  reads : List BucketRead

/-- The initial value `CUR_NUM_BUCKETS - 1` of the `uint64_t bucket_idx`: one less than the
bucket count; on a window without any bucket the subtraction wraps to the largest `uint64_t`. -/
def first_bucket_idx (num_buckets : Nat) : Nat :=
  if num_buckets = 0 then UINT64_SIZE - 1 else num_buckets - 1

/-- The inner loop of `postProcess`,
`for (bucket_idx = ...; bucket_idx >= 1; bucket_idx--)`, from the given `bucket_idx` on: read
the point at `point_idx`, advance `point_idx`, and do the triangle sum update. -/
def bucketLoop {G : Type} [AddMonoid G] (source_kernel_output : Nat → G) (window_idx : Nat) :
    Nat → ReducerState G → ReducerState G
  | 0, s => s
  | bucket_idx + 1, s =>
    let word_offset := NUM_32B_WORDS_PER_OUTPUT * s.point_idx
    let bucket_sum := source_kernel_output word_offset
    let upd := triangleSumUpdate s.values.accum s.values.running bucket_sum
    bucketLoop source_kernel_output window_idx bucket_idx
      { values := { s.values with accum := upd.1, running := upd.2, bucket_sum := bucket_sum }
        bit_offset := s.bit_offset
        point_idx := s.point_idx + 1
        reads := s.reads ++ [⟨word_offset, window_idx, bucket_idx + 1⟩] }

/-- The triangle sum of one window, lines 261-279 of the source: `accum` and `running` are set
to the identity and the inner loop runs from `CUR_NUM_BUCKETS - 1` down to 1. -/
def triangleSum {G : Type} [AddMonoid G] (source_kernel_output : Nat → G) (window_idx : Nat)
    (CUR_NUM_BUCKETS : Nat) (s : ReducerState G) : ReducerState G :=
  bucketLoop source_kernel_output window_idx (first_bucket_idx CUR_NUM_BUCKETS)
    { s with values := { s.values with accum := 0, running := 0 } }

/-- The body of the loop over the windows in `postProcess`. -/
def windowBody {G : Type} [AddMonoid G] (L : WindowLayout) (source_kernel_output : Nat → G)
    (s : ReducerState G) (window_idx : Nat) : ReducerState G :=
  let CUR_WINDOW_LEN := L.NUM_WINDOW_BITS window_idx
  let CUR_NUM_BUCKETS := L.NUM_BUCKETS window_idx
  let s := triangleSum source_kernel_output window_idx CUR_NUM_BUCKETS s
  { s with
    values := { s.values with
      final_result := finalSumUpdate s.values.final_result s.values.accum s.bit_offset }
    bit_offset := s.bit_offset + CUR_WINDOW_LEN }

/-- The state `postProcess` has reached when the loop over the windows ends, before the check of
`point_idx` and the coordinate conversion. -/
def reduceWindows {G : Type} [AddMonoid G] (L : WindowLayout) (source_kernel_output : Nat → G)
    (values : PostProcessingValues G) : ReducerState G :=
  (List.range L.NUM_WINDOWS).foldl (windowBody L source_kernel_output)
    { values := { values with final_result := 0 }, bit_offset := 0, point_idx := 0, reads := [] }

/-- The message `postProcess` prints when `point_idx` is not `NUM_OUTPUT_POINTS`. -/
inductive Message where
  | error_in_point_idx
  deriving DecidableEq, Repr

/-- What a call of `postProcess` leaves behind: the accumulators (with the converted
`final_result`), the messages printed, and the log of the reads. -/
structure PostProcessed (G : Type) where
  values : PostProcessingValues G
  stdout : List Message
  reads : List BucketRead

/-- The method `postProcess(source_kernel_output)`. The conversion
`extendedTwistedEdwardsToWeierstrass` belongs to the curve library and is a parameter. A
`point_idx` different from `NUM_OUTPUT_POINTS` prints a message; the function goes on to the
conversion either way. -/
def postProcess {G : Type} [AddMonoid G] (L : WindowLayout)
    (extendedTwistedEdwardsToWeierstrass : G → G) (source_kernel_output : Nat → G)
    (values : PostProcessingValues G) : PostProcessed G :=
  let s := reduceWindows L source_kernel_output values
  let stdout := if s.point_idx ≠ NUM_OUTPUT_POINTS then [Message.error_in_point_idx] else []
  { values := { s.values with
      final_result := extendedTwistedEdwardsToWeierstrass s.values.final_result }
    stdout := stdout
    reads := s.reads }

/-- What `post_process_final_result_and_copy_to_rust_type` leaves behind: the accumulators, the
cell `*out` (`none` while nothing has been written to it), and the messages printed. -/
structure BatchResult (G R : Type) where
  values : PostProcessingValues G
  out : Option R
  stdout : List Message

/-- The method `post_process_final_result_and_copy_to_rust_type(b, out)`: reduce output buffer A
for an even `b` and buffer B for an odd one, then copy the final result to `*out`. The
conversion `copy_to_rust_type` belongs to the curve library and is a parameter. -/
def post_process_final_result_and_copy_to_rust_type {G R : Type} [AddMonoid G]
    (L : WindowLayout) (extendedTwistedEdwardsToWeierstrass : G → G) (copy_to_rust_type : G → R)
    (source_kernel_output_a source_kernel_output_b : Nat → G) (b : Nat)
    (values : PostProcessingValues G) (_out : Option R) : BatchResult G R :=
  let r := postProcess L extendedTwistedEdwardsToWeierstrass
    (if b % 2 = 0 then source_kernel_output_a else source_kernel_output_b) values
  { values := r.values, out := some (copy_to_rust_type r.values.final_result), stdout := r.stdout }

/-! ## Pipeline orchestrator

`run_asynchronous` is modelled by the sequence of actions the host thread takes, in program
order: the commands it enqueues on the device queue, the barriers `q.finish()`, and the
reductions it runs itself. Calls into OpenCL are taken to succeed (`OCL_CHECK` ends the process
otherwise). -/

/-- The two raw output buffers, `buffer_output_a` / `source_kernel_output_a` and
`buffer_output_b` / `source_kernel_output_b`. -/
inductive OutputSlot where
  | A
  | B
  deriving DecidableEq, Repr

/-- The selection `x % 2 == 0 ? ..._a : ..._b` of an output buffer. -/
def OutputSlot.select (x : Nat) : OutputSlot :=
  if x % 2 = 0 then OutputSlot.A else OutputSlot.B

/-- The actions of `run_asynchronous`. The three actions on an output buffer record the value
of the counter the buffer was selected with (`b`, `transferred_outputs`, `processed_outputs`);
`post_process` also records the offset of the pointer `out` the result is copied to. -/
inductive Action where
  | memcpy_scalars (dst_word_offset src_scalar_offset num_bytes : Nat)
  | migrate_scalars_to_device (chunk_index : Nat)
  | finish
  | task_mm2s_points (chunk_index num_words : Nat) (is_last_chunk : Bool)
  | task_mm2s_scalars (chunk_index num_words : Nat) (is_last_chunk : Bool)
  | task_s2mm (b : Nat) (slot : OutputSlot)
  | migrate_output_to_host (transferred_outputs : Nat) (slot : OutputSlot)
  | flush
  | post_process (processed_outputs : Nat) (slot : OutputSlot) (out : Nat)
  deriving DecidableEq, Repr

/-- The macro `UINT32_PER_INPUT_POINT`, with `BYTES_PER_INPUT_POINT` and `BITS_PER_INPUT_POINT`
(`377 * 3`) expanded. -/
def UINT32_PER_INPUT_POINT : Nat :=
  (((((377 * 3 + DDR_BITS - 1) / DDR_BITS) * DDR_BITS) / 8) / 4)

/-- The macro `UINT32_PER_INPUT_SCALAR`, with `BYTES_PER_INPUT_SCALAR` (32) expanded. -/
def UINT32_PER_INPUT_SCALAR : Nat := (32 / 4)

/-- The function `round_up_to_multiple_of_16(uint32_t x)`: `(x + 15) >> 4 << 4` on 32 bits. -/
def round_up_to_multiple_of_16 (x : Nat) : Nat :=
  ((((x % 2 ^ 32 + 15) % 2 ^ 32) / 2 ^ 4) * 2 ^ 4) % 2 ^ 32

/-- The local variables of `run_asynchronous` (the pointers `out` and `scalars` as offsets from
their initial value), and the actions taken so far. -/
structure PipelineState where
  has_output_to_transfer : Bool
  has_output_to_process : Bool
  transferred_outputs : Nat
  processed_outputs : Nat
  out : Nat
  scalars : Nat
  trace : List Action
  deriving DecidableEq, Repr

/-- Record one action at the end of the trace. -/
def PipelineState.emit (s : PipelineState) (a : Action) : PipelineState :=
  { s with trace := s.trace ++ [a] }

/-- The lambda `do_postprocessing`: reduce the buffer selected by `processed_outputs`, copy the
result to `*out`, and advance both. -/
def do_postprocessing (s : PipelineState) : PipelineState :=
  let s := s.emit (Action.post_process s.processed_outputs
    (OutputSlot.select s.processed_outputs) s.out)
  { s with processed_outputs := s.processed_outputs + 1, out := s.out + 1 }

/-- The lambda `do_work_for_output` (`debug` is `false`, so the reduction is called directly). -/
def do_work_for_output (s : PipelineState) : PipelineState :=
  let s :=
    if s.has_output_to_transfer then
      let s := s.emit (Action.migrate_output_to_host s.transferred_outputs
        (OutputSlot.select s.transferred_outputs))
      { s with transferred_outputs := s.transferred_outputs + 1 }
    else s
  let s := s.emit Action.flush
  let s := if s.has_output_to_process then do_postprocessing s else s
  { s with has_output_to_process := s.has_output_to_transfer }

/-- The body of the loop over the chunks of batch `b` in `run_asynchronous`. -/
def chunk_step (d : Driver) (b : Nat) (s : PipelineState) (chunk_index : Nat) : PipelineState :=
  let num_points_in_chunk := d.get_num_points_in_chunk chunk_index
  let is_last_chunk : Bool := decide (chunk_index = sub64 d.num_input_chunks 1)
  let s := s.emit (Action.memcpy_scalars
    (mul64 (mul64 chunk_index d.max_num_points_per_chunk) UINT32_PER_INPUT_SCALAR)
    s.scalars
    (mul64 (mul64 UINT32_PER_INPUT_SCALAR 4) num_points_in_chunk))
  let s := s.emit (Action.migrate_scalars_to_device chunk_index)
  let s := s.emit Action.finish
  let s := s.emit (Action.task_mm2s_points chunk_index
    (round_up_to_multiple_of_16 (mul64 num_points_in_chunk UINT32_PER_INPUT_POINT))
    is_last_chunk)
  let s := s.emit (Action.task_mm2s_scalars chunk_index
    (round_up_to_multiple_of_16 (mul64 num_points_in_chunk UINT32_PER_INPUT_SCALAR))
    is_last_chunk)
  let s := if is_last_chunk then s.emit (Action.task_s2mm b (OutputSlot.select b)) else s
  let s := do_work_for_output s
  { s with has_output_to_transfer := is_last_chunk, scalars := s.scalars + num_points_in_chunk }

/-- The body of the loop over the batches: the loop over the chunks `0 .. num_input_chunks()-1`. -/
def batch_step (d : Driver) (s : PipelineState) (b : Nat) : PipelineState :=
  (List.range d.num_input_chunks).foldl (chunk_step d b) s

/-- The state of `run_asynchronous` before the first batch. -/
def PipelineState.init : PipelineState :=
  { has_output_to_transfer := false
    has_output_to_process := false
    transferred_outputs := 0
    processed_outputs := 0
    out := 0
    scalars := 0
    trace := [] }

/-- The loop `for (b = 0; b < num_batches; b++)` of `run_asynchronous`. -/
def enqueue_batches (d : Driver) (num_batches : Nat) : PipelineState :=
  (List.range num_batches).foldl (batch_step d) PipelineState.init

/-- The body of the drain loop. -/
def drain_step (s : PipelineState) : PipelineState :=
  let s := s.emit Action.finish
  let s := do_work_for_output s
  { s with has_output_to_transfer := false }

/-- The loop `while (processed_outputs < num_batches)` at the end of `run_asynchronous`; `fuel`
bounds the number of tests of the loop condition and `none` means it ran out. -/
def drain (num_batches : Nat) : Nat → PipelineState → Option PipelineState
  | 0, _ => none
  | fuel + 1, s =>
    if s.processed_outputs < num_batches then drain num_batches fuel (drain_step s)
    else some s

/-- The method `run_asynchronous(out, scalars, num_batches)`: the state it returns in, if the
drain loop ends within `fuel` tests of its condition. -/
def run_asynchronous (d : Driver) (num_batches : Nat) (fuel : Nat) : Option PipelineState :=
  drain num_batches fuel (enqueue_batches d num_batches)

/-! ## Reading a trace -/

/-- The `write results` tasks of a trace: the batch and the output buffer of a `task_s2mm`. -/
def Action.asWrite : Action → Option (Nat × OutputSlot)
  | Action.task_s2mm b slot => some (b, slot)
  | _ => none

/-- The migrations to the host of a trace: the counter and the output buffer. -/
def Action.asMigrate : Action → Option (Nat × OutputSlot)
  | Action.migrate_output_to_host t slot => some (t, slot)
  | _ => none

/-- The reductions of a trace: the counter, the output buffer read, and the offset of `out`. -/
def Action.asReduce : Action → Option (Nat × OutputSlot × Nat)
  | Action.post_process p slot out => some (p, slot, out)
  | _ => none

/-- The trace holds the action `a` and, later, a barrier `q.finish()`. -/
def BarrierAfter (trace : List Action) (a : Action) : Prop :=
  ∃ l1 l2 l3, trace = l1 ++ a :: l2 ++ Action.finish :: l3

/-- Wherever the action `c` stands in the trace, the actions before it hold `a` and, later, a
barrier: `c` is taken only after a barrier that comes after `a`. -/
def OnlyAfterBarrierAfter (trace : List Action) (a c : Action) : Prop :=
  ∀ pre post, trace = pre ++ c :: post → BarrierAfter pre a

/-- What holds of a trace with `w` write-results tasks, `t` migrations and `p` reductions: the
three kinds of action on the output buffers are numbered `0, 1, 2, ...` in the order they are
taken, each on the buffer its number selects, a reduction copies to `out[p]`, every migration
comes only after a barrier after the write-results task of its number, and every reduction only
after a barrier after the migration of its number. -/
structure TraceInv (w t p : Nat) (trace : List Action) : Prop where
  writes : trace.filterMap Action.asWrite =
    (List.range w).map (fun k => (k, OutputSlot.select k))
  migrates : trace.filterMap Action.asMigrate =
    (List.range t).map (fun k => (k, OutputSlot.select k))
  reductions : trace.filterMap Action.asReduce =
    (List.range p).map (fun k => (k, OutputSlot.select k, k))
  migrate_after : ∀ k slot, OnlyAfterBarrierAfter trace
    (Action.task_s2mm k slot) (Action.migrate_output_to_host k slot)
  reduce_after : ∀ k slot out, OnlyAfterBarrierAfter trace
    (Action.migrate_output_to_host k slot) (Action.post_process k slot out)

/-- What holds of the state of `run_asynchronous` between two steps, after `w` write-results
tasks: the trace is in order, `out` has advanced once per reduction, a set
`has_output_to_transfer` stands for the one written buffer not yet migrated and a set
`has_output_to_process` for the one migrated buffer not yet reduced. -/
structure StateInv (w : Nat) (s : PipelineState) : Prop where
  trace_inv : TraceInv w s.transferred_outputs s.processed_outputs s.trace
  out_eq : s.out = s.processed_outputs
  written : w = s.transferred_outputs + (if s.has_output_to_transfer then 1 else 0)
  transferred : s.transferred_outputs =
    s.processed_outputs + (if s.has_output_to_process then 1 else 0)

/-- Wherever the action `c` stands in the trace, the action `a` stands before it: `c` is taken
only after `a`. -/
def OnlyAfter (trace : List Action) (a c : Action) : Prop :=
  ∀ pre post, trace = pre ++ c :: post → a ∈ pre

/-- What holds of a trace about the reuse of an output buffer two batches later: the
write-results task of batch `k + 2` comes only after a barrier after the migration of batch `k`,
the migration of batch `k + 2` comes only after the reduction of batch `k`, and, when `multi`
holds (a batch has two chunks or more), the write-results task of batch `k + 2` comes only after
the reduction of batch `k`. -/
structure ReuseInv (multi : Prop) (trace : List Action) : Prop where
  write_after_migrate : ∀ k slot, OnlyAfterBarrierAfter trace
    (Action.migrate_output_to_host k (OutputSlot.select k)) (Action.task_s2mm (k + 2) slot)
  migrate_after_reduce : ∀ k slot, OnlyAfter trace
    (Action.post_process k (OutputSlot.select k) k) (Action.migrate_output_to_host (k + 2) slot)
  write_after_reduce : multi → ∀ k slot, OnlyAfter trace
    (Action.post_process k (OutputSlot.select k) k) (Action.task_s2mm (k + 2) slot)

/-! ## Machine arithmetic without wrap -/

theorem add64_eq {a b : Nat} (h : a + b < 2 ^ 64) : add64 a b = a + b := by
  unfold add64 UINT64_SIZE
  omega

theorem sub64_eq {a b : Nat} (hb : b ≤ a) (ha : a < 2 ^ 64) : sub64 a b = a - b := by
  unfold sub64 UINT64_SIZE
  omega

theorem mul64_eq {a b : Nat} (h : a * b < 2 ^ 64) : mul64 a b = a * b := by
  unfold mul64 UINT64_SIZE
  exact Nat.mod_eq_of_lt h

theorem shl64_eq {a k : Nat} (h : a * 2 ^ k < 2 ^ 64) : shl64 a k = a * 2 ^ k := by
  unfold shl64 UINT64_SIZE
  exact Nat.mod_eq_of_lt h

/-! ## Chunk planner: the exponent -/

theorem two_pow_le_two_pow_61 {e : Nat} (he : e ≤ 61) : 2 ^ e ≤ 2 ^ 61 :=
  Nat.pow_le_pow_right (by decide) he

theorem mul64_shl64_small {e : Nat} (he : e ≤ 61) :
    mul64 max_allowed_num_chunks (shl64 1 e) = 4 * 2 ^ e := by
  have h := two_pow_le_two_pow_61 he
  rw [shl64_eq (by omega), Nat.one_mul]
  unfold max_allowed_num_chunks
  rw [mul64_eq (by omega)]

/-- The loop of the planner ends for every input up to `2 ^ 63`, at the first exponent whose
four chunks cover the input. -/
theorem calc_log_loop_spec (n : Nat) (hn : n ≤ 2 ^ 63) :
    ∀ fuel log, log ≤ 61 → 62 ≤ fuel + log →
      ∃ e, calc_log_loop n fuel log = some e ∧ log ≤ e ∧ e ≤ 61 ∧ n ≤ 4 * 2 ^ e ∧
        ∀ e', log ≤ e' → e' < e → 4 * 2 ^ e' < n := by
  intro fuel
  induction fuel with
  | zero => intro log h1 h2; omega
  | succ fuel ih =>
    intro log h1 h2
    have hlog : ¬ 64 ≤ log := by omega
    rw [calc_log_loop, if_neg hlog, mul64_shl64_small h1]
    by_cases hc : 4 * 2 ^ log < n
    · rw [if_pos hc]
      have hlt : log < 61 := by
        by_contra hge
        have : log = 61 := by omega
        subst this
        have h63 : (4 : Nat) * 2 ^ 61 = 2 ^ 63 := by norm_num
        omega
      have hadd : add64 log 1 = log + 1 := by
        unfold add64 UINT64_SIZE
        exact Nat.mod_eq_of_lt (by omega)
      rw [hadd]
      obtain ⟨e, he, h3, h4, h5, h6⟩ := ih (log + 1) (by omega) (by omega)
      refine ⟨e, he, by omega, h4, h5, ?_⟩
      intro e' h7 h8
      by_cases h9 : e' = log
      · subst h9; exact hc
      · exact h6 e' (by omega) h8
    · rw [if_neg hc]
      exact ⟨log, rfl, le_refl _, h1, by omega, fun e' h7 h8 => by omega⟩

/-- The planner returns, for every input up to `2 ^ 63`, the least exponent from 18 on whose
four chunks cover the input. -/
theorem calc_log_spec (n : Nat) (hn : n ≤ 2 ^ 63) :
    ∃ e, calc_log_max_num_points_per_chunk n = some e ∧ 18 ≤ e ∧ e ≤ 61 ∧ n ≤ 4 * 2 ^ e ∧
      ∀ e', 18 ≤ e' → e' < e → 4 * 2 ^ e' < n := by
  obtain ⟨e, he, h1, h2, h3, h4⟩ := calc_log_loop_spec n hn 64 18 (by decide) (by decide)
  refine ⟨e, ?_, h1, h2, h3, h4⟩
  unfold calc_log_max_num_points_per_chunk
  rw [he, Option.map_some']
  have : e % 2 ^ 32 = e := Nat.mod_eq_of_lt (by
    have : (2 : Nat) ^ 32 = 4294967296 := by norm_num
    omega)
  rw [this]

theorem Driver.new_eq {n e : Nat} (h : calc_log_max_num_points_per_chunk n = some e) :
    Driver.new n = some ⟨e, n⟩ := by
  unfold Driver.new
  rw [h, Option.map_some']

/-! ## Chunk planner: the chunks of a driver whose arithmetic does not wrap -/

/-- The chunk plan of a driver of `n > 0` points with exponent `e ≤ 61` and `n ≤ 4 * 2 ^ e`:
no operation wraps, there are between one and four chunks, and the last one is not empty. -/
theorem plannedChunks {e n : Nat} (he : e ≤ 61) (h0 : 0 < n) (hn : n ≤ 4 * 2 ^ e) :
    ∃ k, Driver.num_input_chunks ⟨e, n⟩ = k + 1 ∧ k + 1 ≤ 4 ∧
      Driver.max_num_points_per_chunk ⟨e, n⟩ = 2 ^ e ∧
      sub64 (k + 1) 1 = k ∧
      Driver.num_points_in_last_chunk ⟨e, n⟩ = n - k * 2 ^ e ∧
      k * 2 ^ e < n ∧ n ≤ (k + 1) * 2 ^ e := by
  have h := two_pow_le_two_pow_61 he
  have hpos : 0 < 2 ^ e := Nat.two_pow_pos e
  have hmax : Driver.max_num_points_per_chunk ⟨e, n⟩ = 2 ^ e := by
    unfold Driver.max_num_points_per_chunk
    dsimp only
    rw [shl64_eq (by omega), Nat.one_mul]
  have hnum : Driver.num_input_chunks ⟨e, n⟩ = (n + 2 ^ e - 1) / 2 ^ e := by
    unfold Driver.num_input_chunks shr64
    rw [hmax]
    dsimp only
    rw [add64_eq (by omega), sub64_eq (by omega) (by omega)]
  generalize hk : Driver.num_input_chunks ⟨e, n⟩ = k at hnum
  have hk1 : k * 2 ^ e ≤ n + 2 ^ e - 1 := by rw [hnum]; exact Nat.div_mul_le_self _ _
  have hk2 : n + 2 ^ e - 1 < 2 ^ e * (k + 1) := by rw [hnum]; exact Nat.lt_mul_div_succ _ hpos
  have hk3 : 2 ^ e * (k + 1) = k * 2 ^ e + 2 ^ e := by ring
  have hkpos : 1 ≤ k := by
    rw [hnum]
    exact (Nat.one_le_div_iff hpos).mpr (by omega)
  obtain ⟨j, rfl⟩ : ∃ j, k = j + 1 := ⟨k - 1, by omega⟩
  have hj : (j + 1) * 2 ^ e = j * 2 ^ e + 2 ^ e := by ring
  have hle4 : j + 1 ≤ 4 := by
    by_contra hgt
    have : 4 * 2 ^ e ≤ j * 2 ^ e := Nat.mul_le_mul_right _ (by omega)
    omega
  have hj4 : j * 2 ^ e ≤ 3 * 2 ^ e := Nat.mul_le_mul_right _ (by omega)
  have hsub : sub64 (j + 1) 1 = j := by
    rw [sub64_eq (by omega) (by omega)]; rfl
  have hlast : Driver.num_points_in_last_chunk ⟨e, n⟩ = n - j * 2 ^ e := by
    unfold Driver.num_points_in_last_chunk
    rw [hk, hsub]
    dsimp only
    rw [shl64_eq (by omega), sub64_eq (by omega) (by omega)]
  exact ⟨j, rfl, hle4, hmax, hsub, hlast, by omega, by omega⟩

/-- Before the last chunk every chunk has the full size, so chunk `i` starts at `i * 2 ^ e`. -/
theorem sum_full_chunks (d : Driver) (c k : Nat)
    (hget : ∀ i, i < k → d.get_num_points_in_chunk i = c) :
    ∀ i, i ≤ k → ∑ j in Finset.range i, d.get_num_points_in_chunk j = i * c := by
  intro i
  induction i with
  | zero => intro _; simp
  | succ i ih =>
    intro hi
    rw [Finset.sum_range_succ, ih (by omega), hget i (by omega)]
    ring

/-! ## Chunk planner: the claims -/

/-- C2: for `0 < total_num_points < 2 ^ 63` the planner returns an exponent `e ≥ 18`, and on
the driver members `total_num_points` and `log_max_num_points_per_chunk = e` the chunk size is
`2 ^ e` and the chunks partition the input: the sizes of the chunks
`0 .. num_input_chunks() - 1` sum to `total_num_points`, every chunk before the last has the
chunk size (so chunk `i` starts at `i * chunk_size`, where the source places it), and the last
chunk has `num_points_in_last_chunk()` points, at least one and at most the chunk size. -/
theorem chunks_partition_input (n : Nat) (h0 : 0 < n) (h63 : n < 2 ^ 63) :
    ∃ e, calc_log_max_num_points_per_chunk n = some e ∧
      Driver.max_num_points_per_chunk ⟨e, n⟩ = 2 ^ e ∧ 18 ≤ e ∧
      2 ^ 18 ≤ Driver.max_num_points_per_chunk ⟨e, n⟩ ∧
      1 ≤ Driver.num_input_chunks ⟨e, n⟩ ∧
      ∑ i in Finset.range (Driver.num_input_chunks ⟨e, n⟩),
        Driver.get_num_points_in_chunk ⟨e, n⟩ i = n ∧
      (∀ i, i + 1 < Driver.num_input_chunks ⟨e, n⟩ →
        Driver.get_num_points_in_chunk ⟨e, n⟩ i = Driver.max_num_points_per_chunk ⟨e, n⟩) ∧
      (∀ i, i < Driver.num_input_chunks ⟨e, n⟩ →
        ∑ j in Finset.range i, Driver.get_num_points_in_chunk ⟨e, n⟩ j =
          i * Driver.max_num_points_per_chunk ⟨e, n⟩) ∧
      Driver.get_num_points_in_chunk ⟨e, n⟩ (Driver.num_input_chunks ⟨e, n⟩ - 1) =
        Driver.num_points_in_last_chunk ⟨e, n⟩ ∧
      1 ≤ Driver.num_points_in_last_chunk ⟨e, n⟩ ∧
      Driver.num_points_in_last_chunk ⟨e, n⟩ ≤ Driver.max_num_points_per_chunk ⟨e, n⟩ := by
  obtain ⟨e, he, h18, h61, hcover, _⟩ := calc_log_spec n (by omega)
  obtain ⟨k, hk, _, hmax, hsub, hlast, hlo, hhi⟩ := plannedChunks h61 h0 hcover
  have hk' : (k + 1) * 2 ^ e = k * 2 ^ e + 2 ^ e := by ring
  have hget : ∀ i, i < k → Driver.get_num_points_in_chunk ⟨e, n⟩ i = 2 ^ e := by
    intro i hi
    unfold Driver.get_num_points_in_chunk
    rw [hk, hsub, if_neg (by omega), hmax]
  have hgetlast : Driver.get_num_points_in_chunk ⟨e, n⟩ k =
      Driver.num_points_in_last_chunk ⟨e, n⟩ := by
    unfold Driver.get_num_points_in_chunk
    rw [hk, hsub, if_pos rfl]
  have hsum := sum_full_chunks ⟨e, n⟩ (2 ^ e) k hget
  refine ⟨e, he, hmax, h18, ?_, ?_, ?_, ?_, ?_, ?_, ?_, ?_⟩
  · rw [hmax]; exact Nat.pow_le_pow_right (by decide) h18
  · omega
  · rw [hk, Finset.sum_range_succ, hsum k (le_refl _), hgetlast, hlast]
    omega
  · intro i hi
    rw [hmax]
    exact hget i (by omega)
  · intro i hi
    rw [hmax]
    exact hsum i (by omega)
  · rw [hk, Nat.add_sub_cancel]
    exact hgetlast
  · rw [hlast]; omega
  · rw [hlast, hmax]; omega

/-- C2, at 1048581 points. -/
theorem chunks_partition_input_witness :
    0 < 1048581 ∧ 1048581 < 2 ^ 63 ∧
    ∃ e, calc_log_max_num_points_per_chunk 1048581 = some e ∧
      Driver.max_num_points_per_chunk ⟨e, 1048581⟩ = 2 ^ e ∧ 18 ≤ e ∧
      2 ^ 18 ≤ Driver.max_num_points_per_chunk ⟨e, 1048581⟩ ∧
      1 ≤ Driver.num_input_chunks ⟨e, 1048581⟩ ∧
      ∑ i in Finset.range (Driver.num_input_chunks ⟨e, 1048581⟩),
        Driver.get_num_points_in_chunk ⟨e, 1048581⟩ i = 1048581 ∧
      (∀ i, i + 1 < Driver.num_input_chunks ⟨e, 1048581⟩ →
        Driver.get_num_points_in_chunk ⟨e, 1048581⟩ i =
          Driver.max_num_points_per_chunk ⟨e, 1048581⟩) ∧
      (∀ i, i < Driver.num_input_chunks ⟨e, 1048581⟩ →
        ∑ j in Finset.range i, Driver.get_num_points_in_chunk ⟨e, 1048581⟩ j =
          i * Driver.max_num_points_per_chunk ⟨e, 1048581⟩) ∧
      Driver.get_num_points_in_chunk ⟨e, 1048581⟩ (Driver.num_input_chunks ⟨e, 1048581⟩ - 1) =
        Driver.num_points_in_last_chunk ⟨e, 1048581⟩ ∧
      1 ≤ Driver.num_points_in_last_chunk ⟨e, 1048581⟩ ∧
      Driver.num_points_in_last_chunk ⟨e, 1048581⟩ ≤
        Driver.max_num_points_per_chunk ⟨e, 1048581⟩ :=
  ⟨by decide, by decide, chunks_partition_input 1048581 (by decide) (by decide)⟩

/-- C4 as stated fails: for `2 ^ 20 + 5` points the planner does not return exponent 18 with
five chunks. -/
theorem planner_example_as_stated_fails :
    ¬ (calc_log_max_num_points_per_chunk (2 ^ 20 + 5) = some 18 ∧
      (Driver.new (2 ^ 20 + 5)).map Driver.num_input_chunks = some 5 ∧
      (Driver.new (2 ^ 20 + 5)).map Driver.num_points_in_last_chunk =
        some (2 ^ 20 + 5 - 4 * 2 ^ 18)) := by
  decide

/-- C4, amended: for `2 ^ 20 + 5` points the planner returns exponent 19 (four chunks of
`2 ^ 18` points do not cover the input), so the chunk size is `2 ^ 19`, there are 3 chunks, and
the last chunk has `2 ^ 20 + 5 - 2 * 2 ^ 19 = 5` points. -/
theorem planner_selects_two_pow_19 :
    calc_log_max_num_points_per_chunk (2 ^ 20 + 5) = some 19 ∧
    (Driver.new (2 ^ 20 + 5)).map Driver.max_num_points_per_chunk = some (2 ^ 19) ∧
    (Driver.new (2 ^ 20 + 5)).map Driver.num_input_chunks = some 3 ∧
    (Driver.new (2 ^ 20 + 5)).map Driver.num_points_in_last_chunk =
      some (2 ^ 20 + 5 - 2 * 2 ^ 19) ∧
    2 ^ 20 + 5 - 2 * 2 ^ 19 = 5 := by
  decide

/-- C5: for `0 < total_num_points < 2 ^ 63` the planner returns an exponent `e`, the least one
from 18 on with `4 * 2 ^ e ≥ total_num_points`, and on the driver members `total_num_points`
and `log_max_num_points_per_chunk = e` there are between one and four chunks. -/
theorem planner_least_exponent (n : Nat) (h0 : 0 < n) (h63 : n < 2 ^ 63) :
    ∃ e, calc_log_max_num_points_per_chunk n = some e ∧
      18 ≤ e ∧ n ≤ 4 * 2 ^ e ∧ (∀ e', 18 ≤ e' → n ≤ 4 * 2 ^ e' → e ≤ e') ∧
      1 ≤ Driver.num_input_chunks ⟨e, n⟩ ∧ Driver.num_input_chunks ⟨e, n⟩ ≤ 4 := by
  obtain ⟨e, he, h18, h61, hcover, hleast⟩ := calc_log_spec n (by omega)
  obtain ⟨k, hk, hk4, _⟩ := plannedChunks h61 h0 hcover
  refine ⟨e, he, h18, hcover, ?_, by omega, by omega⟩
  intro e' h1 h2
  by_contra hlt
  have := hleast e' h1 (by omega)
  omega

/-- C5, at 1048581 points. -/
theorem planner_least_exponent_witness :
    0 < 1048581 ∧ 1048581 < 2 ^ 63 ∧
    ∃ e, calc_log_max_num_points_per_chunk 1048581 = some e ∧
      18 ≤ e ∧ 1048581 ≤ 4 * 2 ^ e ∧ (∀ e', 18 ≤ e' → 1048581 ≤ 4 * 2 ^ e' → e ≤ e') ∧
      1 ≤ Driver.num_input_chunks ⟨e, 1048581⟩ ∧ Driver.num_input_chunks ⟨e, 1048581⟩ ≤ 4 :=
  ⟨by decide, by decide, planner_least_exponent 1048581 (by decide) (by decide)⟩

/-- C6 as stated fails: the constructor returns a driver for zero points. -/
theorem zero_points_as_stated_fails : ¬ (Driver.new 0 = none) := by
  decide

/-- C6, amended: for zero points nothing fails. The planner returns exponent 18, the driver is
constructed with chunk size `2 ^ 18`, and it has no chunk at all. -/
theorem zero_points_plan :
    calc_log_max_num_points_per_chunk 0 = some 18 ∧
    Driver.new 0 = some ⟨18, 0⟩ ∧
    Driver.max_num_points_per_chunk ⟨18, 0⟩ = 2 ^ 18 ∧
    Driver.num_input_chunks ⟨18, 0⟩ = 0 := by
  decide

/-- C8: for `0 < n ≤ m < 2 ^ 63` the planner returns an exponent for `n` and one for `m`; on
the driver members `total_num_points` and `log_max_num_points_per_chunk` of each, the number of
chunks is the ceiling of the number of points over the chunk size; and the chunk size for `n`
is at most the one for `m`. -/
theorem chunk_count_is_ceiling_and_size_monotone (n m : Nat) (h0 : 0 < n) (hnm : n ≤ m)
    (h63 : m < 2 ^ 63) :
    ∃ en em, calc_log_max_num_points_per_chunk n = some en ∧
      calc_log_max_num_points_per_chunk m = some em ∧
      Driver.max_num_points_per_chunk ⟨en, n⟩ = 2 ^ en ∧
      Driver.max_num_points_per_chunk ⟨em, m⟩ = 2 ^ em ∧
      Driver.num_input_chunks ⟨en, n⟩ =
        ⌈(n : ℚ) / (Driver.max_num_points_per_chunk ⟨en, n⟩ : ℚ)⌉₊ ∧
      Driver.num_input_chunks ⟨em, m⟩ =
        ⌈(m : ℚ) / (Driver.max_num_points_per_chunk ⟨em, m⟩ : ℚ)⌉₊ ∧
      en ≤ em ∧
      Driver.max_num_points_per_chunk ⟨en, n⟩ ≤ Driver.max_num_points_per_chunk ⟨em, m⟩ := by
  have hceil : ∀ x, 0 < x → x < 2 ^ 63 → ∃ e, calc_log_max_num_points_per_chunk x = some e ∧
      e ≤ 61 ∧ 18 ≤ e ∧ x ≤ 4 * 2 ^ e ∧ (∀ e', 18 ≤ e' → e' < e → 4 * 2 ^ e' < x) ∧
      Driver.max_num_points_per_chunk ⟨e, x⟩ = 2 ^ e ∧
      Driver.num_input_chunks ⟨e, x⟩ =
        ⌈(x : ℚ) / (Driver.max_num_points_per_chunk ⟨e, x⟩ : ℚ)⌉₊ := by
    intro x hx0 hx63
    obtain ⟨e, he, h18, h61, hcover, hleast⟩ := calc_log_spec x (by omega)
    obtain ⟨k, hk, _, hmax, _, _, hlo, hhi⟩ := plannedChunks h61 hx0 hcover
    refine ⟨e, he, h61, h18, hcover, hleast, hmax, ?_⟩
    rw [hk, hmax]
    symm
    have hc : (0 : ℚ) < ((2 ^ e : ℕ) : ℚ) := by exact_mod_cast Nat.two_pow_pos e
    rw [Nat.ceil_eq_iff (by omega)]
    constructor
    · rw [lt_div_iff₀ hc]
      exact_mod_cast hlo
    · rw [div_le_iff₀ hc]
      exact_mod_cast hhi
  obtain ⟨en, hen, _, hn18, hncover, hnleast, hnmax, hnceil⟩ := hceil n h0 (by omega)
  obtain ⟨em, hem, _, hm18, hmcover, hmleast, hmmax, hmceil⟩ := hceil m (by omega) h63
  have hmono : en ≤ em := by
    by_contra hlt
    have := hnleast em hm18 (by omega)
    omega
  refine ⟨en, em, hen, hem, hnmax, hmmax, hnceil, hmceil, hmono, ?_⟩
  rw [hnmax, hmmax]
  exact Nat.pow_le_pow_right (by decide) hmono

/-- C8, at 5 and 1048581 points. -/
theorem chunk_count_is_ceiling_and_size_monotone_witness :
    0 < 5 ∧ 5 ≤ 1048581 ∧ 1048581 < 2 ^ 63 ∧
    ∃ en em, calc_log_max_num_points_per_chunk 5 = some en ∧
      calc_log_max_num_points_per_chunk 1048581 = some em ∧
      Driver.max_num_points_per_chunk ⟨en, 5⟩ = 2 ^ en ∧
      Driver.max_num_points_per_chunk ⟨em, 1048581⟩ = 2 ^ em ∧
      Driver.num_input_chunks ⟨en, 5⟩ =
        ⌈((5 : ℕ) : ℚ) / (Driver.max_num_points_per_chunk ⟨en, 5⟩ : ℚ)⌉₊ ∧
      Driver.num_input_chunks ⟨em, 1048581⟩ =
        ⌈((1048581 : ℕ) : ℚ) / (Driver.max_num_points_per_chunk ⟨em, 1048581⟩ : ℚ)⌉₊ ∧
      en ≤ em ∧
      Driver.max_num_points_per_chunk ⟨en, 5⟩ ≤
        Driver.max_num_points_per_chunk ⟨em, 1048581⟩ :=
  ⟨by decide, by decide, by decide,
    chunk_count_is_ceiling_and_size_monotone 5 1048581 (by decide) (by decide) (by decide)⟩

/-! ## Bucket reducer: the inner loop -/

/-- A sum over the bucket indices `1 .. m` is the sum over the steps `j` of the descending loop,
which is at bucket index `m - j` in step `j`. -/
theorem sum_Icc_eq_sum_range_descending {G : Type} [AddCommMonoid G] (h : Nat → G) (m : Nat) :
    ∑ i in Finset.Icc 1 m, h i = ∑ j in Finset.range m, h (m - j) := by
  have h1 : ∑ j in Finset.range m, h (m - j) = ∑ j in Finset.range m, h (m - 1 - j + 1) := by
    apply Finset.sum_congr rfl
    intro j hj
    rw [Finset.mem_range] at hj
    congr 1
    omega
  rw [h1, Finset.sum_range_reflect (fun j => h (j + 1)) m, ← Nat.Ico_succ_right,
    Finset.sum_Ico_eq_sum_range]
  apply Finset.sum_congr rfl
  intro j _
  congr 1
  omega

/-- The inner loop from `bucket_idx = m` on, step by step: it reads `m` consecutive entries,
adds each into `running` and `running` into `accum`, and leaves the rest alone. -/
theorem bucketLoop_spec {G : Type} [AddCommGroup G] (src : Nat → G) (w : Nat) :
    ∀ (m : Nat) (s : ReducerState G),
      (bucketLoop src w m s).point_idx = s.point_idx + m ∧
      (bucketLoop src w m s).bit_offset = s.bit_offset ∧
      (bucketLoop src w m s).values.final_result = s.values.final_result ∧
      (bucketLoop src w m s).values.running = s.values.running +
        ∑ j in Finset.range m, src (NUM_32B_WORDS_PER_OUTPUT * (s.point_idx + j)) ∧
      (bucketLoop src w m s).values.accum = s.values.accum + m • s.values.running +
        ∑ j in Finset.range m, (m - j) • src (NUM_32B_WORDS_PER_OUTPUT * (s.point_idx + j)) ∧
      (bucketLoop src w m s).reads = s.reads ++ (List.range m).map
        (fun j => ⟨NUM_32B_WORDS_PER_OUTPUT * (s.point_idx + j), w, m - j⟩) := by
  intro m
  induction m with
  | zero => intro s; simp [bucketLoop]
  | succ m ih =>
    intro s
    rw [bucketLoop]
    obtain ⟨h1, h2, h3, h4, h5, h6⟩ := ih
      { values := { s.values with
          accum := (triangleSumUpdate s.values.accum s.values.running
            (src (NUM_32B_WORDS_PER_OUTPUT * s.point_idx))).1
          running := (triangleSumUpdate s.values.accum s.values.running
            (src (NUM_32B_WORDS_PER_OUTPUT * s.point_idx))).2
          bucket_sum := src (NUM_32B_WORDS_PER_OUTPUT * s.point_idx) }
        bit_offset := s.bit_offset
        point_idx := s.point_idx + 1
        reads := s.reads ++ [⟨NUM_32B_WORDS_PER_OUTPUT * s.point_idx, w, m + 1⟩] }
    dsimp only at h1 h2 h3 h4 h5 h6 ⊢
    refine ⟨by rw [h1]; omega, h2, h3, ?_, ?_, ?_⟩
    · rw [h4, Finset.sum_range_succ']
      simp only [triangleSumUpdate, Nat.add_zero]
      have : ∀ j, s.point_idx + 1 + j = s.point_idx + (j + 1) := fun j => by omega
      simp only [this]
      abel
    · rw [h5, Finset.sum_range_succ']
      simp only [triangleSumUpdate, Nat.add_zero, Nat.sub_zero]
      have : ∀ j, s.point_idx + 1 + j = s.point_idx + (j + 1) := fun j => by omega
      simp only [this, Nat.add_sub_add_right, succ_nsmul, nsmul_add]
      abel
    · rw [h6, List.range_succ_eq_map]
      have : ∀ j, s.point_idx + 1 + j = s.point_idx + (j + 1) := fun j => by omega
      simp [this, Function.comp_def]


/-- The bucket count of a window with at least one bucket gives the start index one below. -/
theorem first_bucket_idx_of_pos {K : Nat} (hK : 1 ≤ K) : first_bucket_idx K = K - 1 := by
  unfold first_bucket_idx
  rw [if_neg (by omega)]

/-- The triangle sum of one window in terms of the bucket indices `1 .. K - 1`: bucket `i` is
the entry read `K - 1 - i` places after the first one. -/
theorem triangleSum_spec {G : Type} [AddCommGroup G] (src : Nat → G) (w K : Nat) (hK : 1 ≤ K)
    (s : ReducerState G) :
    (triangleSum src w K s).point_idx = s.point_idx + (K - 1) ∧
    (triangleSum src w K s).bit_offset = s.bit_offset ∧
    (triangleSum src w K s).values.final_result = s.values.final_result ∧
    (triangleSum src w K s).values.running = ∑ i in Finset.Icc 1 (K - 1),
      src (NUM_32B_WORDS_PER_OUTPUT * (s.point_idx + (K - 1 - i))) ∧
    (triangleSum src w K s).values.accum = ∑ i in Finset.Icc 1 (K - 1),
      i • src (NUM_32B_WORDS_PER_OUTPUT * (s.point_idx + (K - 1 - i))) ∧
    (triangleSum src w K s).reads = s.reads ++ (List.range (K - 1)).map
      (fun j => ⟨NUM_32B_WORDS_PER_OUTPUT * (s.point_idx + j), w, K - 1 - j⟩) := by
  unfold triangleSum
  rw [first_bucket_idx_of_pos hK]
  obtain ⟨h1, h2, h3, h4, h5, h6⟩ := bucketLoop_spec src w (K - 1)
    { s with values := { s.values with accum := 0, running := 0 } }
  dsimp only at h1 h2 h3 h4 h5 h6
  refine ⟨h1, h2, h3, ?_, ?_, h6⟩
  · rw [h4, zero_add, sum_Icc_eq_sum_range_descending]
    apply Finset.sum_congr rfl
    intro j hj
    rw [Finset.mem_range] at hj
    congr 3
    omega
  · rw [h5, zero_add, smul_zero, zero_add, sum_Icc_eq_sum_range_descending]
    apply Finset.sum_congr rfl
    intro j hj
    rw [Finset.mem_range] at hj
    congr 4
    omega

/-- C1: for a window of `K ≥ 1` buckets the triangle sum (reset of `accum` and `running`, then
the descending loop with `running += bucket_sum; accum += running`) reads the bucket sums in
descending bucket index `K - 1, ..., 1` and ends with `running` the sum of the buckets
`1 .. K - 1` and `accum` their index-weighted sum, in every commutative group; for three
buckets `b1, b2, b3` at the indices 3, 2, 1 this is `b1 + b2 + b3` and
`3 * b1 + 2 * b2 + 1 * b3`. -/
theorem triangle_sum_is_index_weighted_sum {G : Type} [AddCommGroup G] (src : Nat → G)
    (w K : Nat) (hK : 1 ≤ K) (s : ReducerState G) :
    ((triangleSum src w K s).reads = s.reads ++ (List.range (K - 1)).map
      (fun j => ⟨NUM_32B_WORDS_PER_OUTPUT * (s.point_idx + j), w, K - 1 - j⟩) ∧
    (triangleSum src w K s).values.running = ∑ i in Finset.Icc 1 (K - 1),
      src (NUM_32B_WORDS_PER_OUTPUT * (s.point_idx + (K - 1 - i))) ∧
    (triangleSum src w K s).values.accum = ∑ i in Finset.Icc 1 (K - 1),
      i • src (NUM_32B_WORDS_PER_OUTPUT * (s.point_idx + (K - 1 - i)))) ∧
    ∀ b1 b2 b3 : G,
      (triangleSum (fun o => if o = 0 then b1 else if o = NUM_32B_WORDS_PER_OUTPUT then b2 else b3)
        w 4 { s with point_idx := 0 }).values.running = b1 + b2 + b3 ∧
      (triangleSum (fun o => if o = 0 then b1 else if o = NUM_32B_WORDS_PER_OUTPUT then b2 else b3)
        w 4 { s with point_idx := 0 }).values.accum = 3 • b1 + 2 • b2 + 1 • b3 := by
  obtain ⟨_, _, _, h4, h5, h6⟩ := triangleSum_spec src w K hK s
  refine ⟨⟨h6, h4, h5⟩, ?_⟩
  intro b1 b2 b3
  have h48 : NUM_32B_WORDS_PER_OUTPUT = 48 := by decide
  constructor
  · simp [triangleSum, first_bucket_idx, bucketLoop, triangleSumUpdate, h48]
  · simp [triangleSum, first_bucket_idx, bucketLoop, triangleSumUpdate, h48]
    abel


/-- C1, on a window of four buckets over the integers. -/
theorem triangle_sum_is_index_weighted_sum_witness :
    1 ≤ 4 ∧
    (triangleSum (G := ℤ) (fun o => (o : ℤ)) 0 4 ⟨⟨7, 7, 7, 7⟩, 0, 0, []⟩).values.accum =
      ∑ i in Finset.Icc 1 (4 - 1), i • ((NUM_32B_WORDS_PER_OUTPUT * (0 + (4 - 1 - i)) : ℕ) : ℤ) :=
  ⟨by decide,
    (triangle_sum_is_index_weighted_sum (G := ℤ) (fun o => (o : ℤ)) 0 4 (by decide)
      ⟨⟨7, 7, 7, 7⟩, 0, 0, []⟩).1.2.2⟩

/-! ## Bucket reducer: the loop over the windows -/

/-- The state after the first `n` windows, when every window has at least one bucket. -/
theorem windows_spec {G : Type} [AddCommGroup G] (L : WindowLayout) (src : Nat → G)
    (hK : ∀ w, w < L.NUM_WINDOWS → 1 ≤ L.NUM_BUCKETS w) (values : PostProcessingValues G) :
    ∀ n, n ≤ L.NUM_WINDOWS →
      ((List.range n).foldl (windowBody L src)
        { values := { values with final_result := 0 }
          bit_offset := 0, point_idx := 0, reads := [] }).point_idx =
        ∑ v in Finset.range n, (L.NUM_BUCKETS v - 1) ∧
      ((List.range n).foldl (windowBody L src)
        { values := { values with final_result := 0 }
          bit_offset := 0, point_idx := 0, reads := [] }).bit_offset =
        ∑ v in Finset.range n, L.NUM_WINDOW_BITS v ∧
      ((List.range n).foldl (windowBody L src)
        { values := { values with final_result := 0 }
          bit_offset := 0, point_idx := 0, reads := [] }).values.final_result =
        ∑ w in Finset.range n, (2 ^ ∑ v in Finset.range w, L.NUM_WINDOW_BITS v) •
          ∑ i in Finset.Icc 1 (L.NUM_BUCKETS w - 1),
            i • src (NUM_32B_WORDS_PER_OUTPUT *
              (∑ v in Finset.range w, (L.NUM_BUCKETS v - 1) + (L.NUM_BUCKETS w - 1 - i))) ∧
      ((List.range n).foldl (windowBody L src)
        { values := { values with final_result := 0 }
          bit_offset := 0, point_idx := 0, reads := [] }).reads =
        (List.range n).flatMap (fun w => (List.range (L.NUM_BUCKETS w - 1)).map
          (fun j => ⟨NUM_32B_WORDS_PER_OUTPUT *
            (∑ v in Finset.range w, (L.NUM_BUCKETS v - 1) + j), w, L.NUM_BUCKETS w - 1 - j⟩)) := by
  intro n
  induction n with
  | zero => intro _; simp
  | succ n ih =>
    intro hn
    obtain ⟨i1, i2, i3, i4⟩ := ih (by omega)
    rw [List.range_succ, List.foldl_append, List.foldl_cons, List.foldl_nil]
    generalize (List.range n).foldl (windowBody L src)
        { values := { values with final_result := 0 }
          bit_offset := 0, point_idx := 0, reads := [] } = r at i1 i2 i3 i4
    obtain ⟨h1, h2, h3, _, h5, h6⟩ :=
      triangleSum_spec src n (L.NUM_BUCKETS n) (hK n (by omega)) r
    unfold windowBody
    dsimp only
    refine ⟨?_, ?_, ?_, ?_⟩
    · rw [h1, i1, Finset.sum_range_succ]
    · rw [h2, i2, Finset.sum_range_succ]
    · unfold finalSumUpdate
      rw [h3, h5, h2, i1, i2, i3, Finset.sum_range_succ]
    · rw [h6, i1, i4, List.flatMap_append]
      simp

/-- The word offsets of the reads of all windows, in order, are those of the entries
`0, 1, 2, ...` of the buffer. -/
theorem offsets_of_reads (k : Nat → Nat) (n : Nat) :
    (List.range n).flatMap (fun w => (List.range (k w)).map
      (fun j => NUM_32B_WORDS_PER_OUTPUT * (∑ v in Finset.range w, k v + j))) =
    (List.range (∑ v in Finset.range n, k v)).map (fun p => NUM_32B_WORDS_PER_OUTPUT * p) := by
  induction n with
  | zero => simp
  | succ n ih =>
    rw [List.range_succ, List.flatMap_append, ih, Finset.sum_range_succ, List.range_add]
    simp [Function.comp_def]


/-! ## Bucket reducer: the claims -/

/-- C9: for every window layout whose windows have at least one bucket, every raw output buffer
and every content of the scratch accumulators, the point `postProcess` holds before the
coordinate conversion is the sum over the windows `w` of `2 ^ (bits of the windows before w)`
times the index-weighted sum of the buckets `1 .. NUM_BUCKETS(w) - 1` of `w`, bucket `i` of
window `w` being the entry at position
`(sum of NUM_BUCKETS(v) - 1 for v < w) + (NUM_BUCKETS(w) - 1 - i)`. The reads are exactly these
entries, window by window in descending bucket index; no read is for bucket 0, the positions
read are `0, 1, 2, ...` in this order, and the result is the same for every content of the
scratch accumulators. -/
theorem reduction_is_weighted_window_sum {G : Type} [AddCommGroup G] (L : WindowLayout)
    (extendedTwistedEdwardsToWeierstrass : G → G) (src : Nat → G)
    (values : PostProcessingValues G)
    (hK : ∀ w, w < L.NUM_WINDOWS → 1 ≤ L.NUM_BUCKETS w) :
    (reduceWindows L src values).values.final_result =
      ∑ w in Finset.range L.NUM_WINDOWS, (2 ^ ∑ v in Finset.range w, L.NUM_WINDOW_BITS v) •
        ∑ i in Finset.Icc 1 (L.NUM_BUCKETS w - 1),
          i • src (NUM_32B_WORDS_PER_OUTPUT *
            (∑ v in Finset.range w, (L.NUM_BUCKETS v - 1) + (L.NUM_BUCKETS w - 1 - i))) ∧
    (postProcess L extendedTwistedEdwardsToWeierstrass src values).values.final_result =
      extendedTwistedEdwardsToWeierstrass (reduceWindows L src values).values.final_result ∧
    (postProcess L extendedTwistedEdwardsToWeierstrass src values).reads =
      (List.range L.NUM_WINDOWS).flatMap (fun w => (List.range (L.NUM_BUCKETS w - 1)).map
        (fun j => ⟨NUM_32B_WORDS_PER_OUTPUT *
          (∑ v in Finset.range w, (L.NUM_BUCKETS v - 1) + j), w, L.NUM_BUCKETS w - 1 - j⟩)) ∧
    (∀ r ∈ (postProcess L extendedTwistedEdwardsToWeierstrass src values).reads,
      1 ≤ r.bucket_idx) ∧
    ((postProcess L extendedTwistedEdwardsToWeierstrass src values).reads.map
        BucketRead.word_offset =
      (List.range (∑ w in Finset.range L.NUM_WINDOWS, (L.NUM_BUCKETS w - 1))).map
        (fun p => NUM_32B_WORDS_PER_OUTPUT * p)) ∧
    ∀ values' : PostProcessingValues G,
      (reduceWindows L src values').values.final_result =
        (reduceWindows L src values).values.final_result := by
  obtain ⟨_, _, h3, h4⟩ := windows_spec L src hK values L.NUM_WINDOWS (le_refl _)
  have hreads : (postProcess L extendedTwistedEdwardsToWeierstrass src values).reads =
      (reduceWindows L src values).reads := rfl
  refine ⟨h3, rfl, ?_, ?_, ?_, ?_⟩
  · rw [hreads]; exact h4
  · intro r hr
    rw [hreads] at hr
    unfold reduceWindows at hr
    rw [h4, List.mem_flatMap] at hr
    obtain ⟨w, _, hr⟩ := hr
    rw [List.mem_map] at hr
    obtain ⟨j, hj, rfl⟩ := hr
    rw [List.mem_range] at hj
    dsimp only
    omega
  · rw [hreads]
    unfold reduceWindows
    rw [h4, List.map_flatMap, ← offsets_of_reads]
    simp [Function.comp_def]
  · intro values'
    obtain ⟨_, _, h3', _⟩ := windows_spec L src hK values' L.NUM_WINDOWS (le_refl _)
    unfold reduceWindows
    rw [h3, h3']

/-- C9, on two windows of 3 and 2 bits with 4 and 3 buckets, over the integers. -/
theorem reduction_is_weighted_window_sum_witness :
    (∀ w, w < 2 → 1 ≤ (if w = 0 then 4 else 3)) ∧
    (reduceWindows (G := ℤ) ⟨2, fun w => if w = 0 then 3 else 2, fun w => if w = 0 then 4 else 3⟩
        (fun o => (o : ℤ)) ⟨7, 7, 7, 7⟩).values.final_result =
      ∑ w in Finset.range 2, (2 ^ ∑ v in Finset.range w, (if v = 0 then 3 else 2)) •
        ∑ i in Finset.Icc 1 ((if w = 0 then 4 else 3) - 1),
          i • ((NUM_32B_WORDS_PER_OUTPUT *
            (∑ v in Finset.range w, ((if v = 0 then 4 else 3) - 1) +
              ((if w = 0 then 4 else 3) - 1 - i)) : ℕ) : ℤ) :=
  ⟨fun w _ => by split <;> decide,
    (reduction_is_weighted_window_sum (G := ℤ)
      ⟨2, fun w => if w = 0 then 3 else 2, fun w => if w = 0 then 4 else 3⟩ id
      (fun o => (o : ℤ)) ⟨7, 7, 7, 7⟩ (fun w _ => by dsimp only; split <;> decide)).1⟩

/-- C7 as stated fails: on a layout of one window with two buckets the reduction consumes one
bucket sum, not `NUM_OUTPUT_POINTS`, and the result point is written all the same. -/
theorem point_count_mismatch_as_stated_fails :
    ¬ ((reduceWindows (G := ℤ) ⟨1, fun _ => 1, fun _ => 2⟩ (fun _ => 5) ⟨0, 0, 0, 0⟩).point_idx ≠
        NUM_OUTPUT_POINTS →
      (post_process_final_result_and_copy_to_rust_type (G := ℤ) (R := ℤ)
        ⟨1, fun _ => 1, fun _ => 2⟩ id id (fun _ => 5) (fun _ => 5) 0 ⟨0, 0, 0, 0⟩ none).out =
        none) := by
  intro h
  have hne : (reduceWindows (G := ℤ) ⟨1, fun _ => 1, fun _ => 2⟩ (fun _ => 5)
      ⟨0, 0, 0, 0⟩).point_idx ≠ NUM_OUTPUT_POINTS := by decide
  have hout := h hne
  simp [post_process_final_result_and_copy_to_rust_type] at hout

/-- C7, amended: for every layout whose windows have at least one bucket, the number of bucket
sums `postProcess` consumes is the sum over the windows of `NUM_BUCKETS(w) - 1`; the message
`ERROR IN point_idx` is printed exactly when this differs from `NUM_OUTPUT_POINTS`, and nothing
is printed otherwise. In both cases the reduction goes on: the final result is converted and
copied to `*out`. -/
theorem point_count_mismatch_is_reported {G R : Type} [AddCommGroup G] (L : WindowLayout)
    (extendedTwistedEdwardsToWeierstrass : G → G) (copy_to_rust_type : G → R)
    (source_kernel_output_a source_kernel_output_b : Nat → G) (b : Nat)
    (values : PostProcessingValues G) (out : Option R)
    (hK : ∀ w, w < L.NUM_WINDOWS → 1 ≤ L.NUM_BUCKETS w) :
    (reduceWindows L (if b % 2 = 0 then source_kernel_output_a else source_kernel_output_b)
      values).point_idx = ∑ w in Finset.range L.NUM_WINDOWS, (L.NUM_BUCKETS w - 1) ∧
    ((post_process_final_result_and_copy_to_rust_type L extendedTwistedEdwardsToWeierstrass
        copy_to_rust_type source_kernel_output_a source_kernel_output_b b values out).stdout =
        [Message.error_in_point_idx] ↔
      ∑ w in Finset.range L.NUM_WINDOWS, (L.NUM_BUCKETS w - 1) ≠ NUM_OUTPUT_POINTS) ∧
    ((post_process_final_result_and_copy_to_rust_type L extendedTwistedEdwardsToWeierstrass
        copy_to_rust_type source_kernel_output_a source_kernel_output_b b values out).stdout =
        [] ↔
      ∑ w in Finset.range L.NUM_WINDOWS, (L.NUM_BUCKETS w - 1) = NUM_OUTPUT_POINTS) ∧
    (post_process_final_result_and_copy_to_rust_type L extendedTwistedEdwardsToWeierstrass
        copy_to_rust_type source_kernel_output_a source_kernel_output_b b values out).out =
      some (copy_to_rust_type (extendedTwistedEdwardsToWeierstrass
        (reduceWindows L (if b % 2 = 0 then source_kernel_output_a else source_kernel_output_b)
          values).values.final_result)) := by
  obtain ⟨h1, _, _, _⟩ := windows_spec L
    (if b % 2 = 0 then source_kernel_output_a else source_kernel_output_b) hK values
    L.NUM_WINDOWS (le_refl _)
  have h1' : (reduceWindows L
      (if b % 2 = 0 then source_kernel_output_a else source_kernel_output_b) values).point_idx =
      ∑ w in Finset.range L.NUM_WINDOWS, (L.NUM_BUCKETS w - 1) := h1
  refine ⟨h1', ?_, ?_, rfl⟩
  · unfold post_process_final_result_and_copy_to_rust_type postProcess
    dsimp only
    rw [h1']
    by_cases hc : ∑ w in Finset.range L.NUM_WINDOWS, (L.NUM_BUCKETS w - 1) = NUM_OUTPUT_POINTS
    · simp [hc]
    · simp [hc]
  · unfold post_process_final_result_and_copy_to_rust_type postProcess
    dsimp only
    rw [h1']
    by_cases hc : ∑ w in Finset.range L.NUM_WINDOWS, (L.NUM_BUCKETS w - 1) = NUM_OUTPUT_POINTS
    · simp [hc]
    · simp [hc]

/-- C7 amended, on a layout of one window with two buckets, over the integers. -/
theorem point_count_mismatch_is_reported_witness :
    (∀ w, w < 1 → 1 ≤ 2) ∧
    (post_process_final_result_and_copy_to_rust_type (G := ℤ) (R := ℤ)
      ⟨1, fun _ => 1, fun _ => 2⟩ id id (fun _ => 5) (fun _ => 5) 0 ⟨0, 0, 0, 0⟩ none).out =
      some (id (id (reduceWindows (G := ℤ) ⟨1, fun _ => 1, fun _ => 2⟩
        (if 0 % 2 = 0 then (fun _ => 5) else (fun _ => 5)) ⟨0, 0, 0, 0⟩).values.final_result)) :=
  ⟨fun _ _ => by decide,
    (point_count_mismatch_is_reported (G := ℤ) (R := ℤ) ⟨1, fun _ => 1, fun _ => 2⟩ id id
      (fun _ => 5) (fun _ => 5) 0 ⟨0, 0, 0, 0⟩ none (fun _ _ => Nat.le_succ 1)).2.2.2⟩

/-! ## Pipeline orchestrator: traces -/

theorem append_singleton_eq_append_cons {α : Type} {l pre post : List α} {x c : α}
    (h : l ++ [x] = pre ++ c :: post) :
    (post = [] ∧ pre = l ∧ x = c) ∨ ∃ post', post = post' ++ [x] ∧ l = pre ++ c :: post' := by
  rcases List.eq_nil_or_concat post with rfl | ⟨post', y, hp⟩
  · obtain ⟨h1, h2⟩ := List.append_inj' h rfl
    exact Or.inl ⟨rfl, h1.symm, by simpa using h2⟩
  · rw [List.concat_eq_append] at hp
    subst hp
    have h' : l ++ [x] = (pre ++ c :: post') ++ [y] := by simpa using h
    obtain ⟨h1, h2⟩ := List.append_inj' h' rfl
    have hxy : x = y := by simpa using h2
    exact Or.inr ⟨post', by rw [hxy], h1⟩

theorem BarrierAfter.of_mem {trace : List Action} {a : Action} (h : a ∈ trace) :
    BarrierAfter (trace ++ [Action.finish]) a := by
  obtain ⟨l1, l2, rfl⟩ := List.append_of_mem h
  exact ⟨l1, l2, [], by simp⟩

theorem BarrierAfter.append {trace : List Action} {a : Action} (h : BarrierAfter trace a)
    (l : List Action) : BarrierAfter (trace ++ l) a := by
  obtain ⟨l1, l2, l3, rfl⟩ := h
  exact ⟨l1, l2, l3 ++ l, by simp⟩

theorem OnlyAfterBarrierAfter.keep_other {trace : List Action} {a c x : Action}
    (h : OnlyAfterBarrierAfter trace a c) (hx : x ≠ c) :
    OnlyAfterBarrierAfter (trace ++ [x]) a c := by
  intro pre post heq
  rcases append_singleton_eq_append_cons heq with ⟨_, _, h3⟩ | ⟨post', _, h2⟩
  · exact absurd h3 hx
  · exact h pre post' h2

theorem OnlyAfterBarrierAfter.keep_after {trace : List Action} {a c : Action}
    (h : OnlyAfterBarrierAfter trace a c) (hb : BarrierAfter trace a) :
    OnlyAfterBarrierAfter (trace ++ [c]) a c := by
  intro pre post heq
  rcases append_singleton_eq_append_cons heq with ⟨_, h2, _⟩ | ⟨post', _, h2⟩
  · rw [h2]; exact hb
  · exact h pre post' h2

theorem TraceInv.nil : TraceInv 0 0 0 [] := by
  refine ⟨rfl, rfl, rfl, ?_, ?_⟩
  · intro k slot pre post h
    exact absurd h (by simp)
  · intro k slot out pre post h
    exact absurd h (by simp)

/-- An action that is not on an output buffer keeps the trace in order. -/
theorem TraceInv.emit_other {w t p : Nat} {trace : List Action} (h : TraceInv w t p trace)
    (x : Action) (h1 : x.asWrite = none) (h2 : x.asMigrate = none) (h3 : x.asReduce = none) :
    TraceInv w t p (trace ++ [x]) := by
  refine ⟨?_, ?_, ?_, ?_, ?_⟩
  · rw [List.filterMap_append, h.writes]; simp [h1]
  · rw [List.filterMap_append, h.migrates]; simp [h2]
  · rw [List.filterMap_append, h.reductions]; simp [h3]
  · intro k slot
    refine (h.migrate_after k slot).keep_other ?_
    intro hx; rw [hx] at h2; simp [Action.asMigrate] at h2
  · intro k slot out
    refine (h.reduce_after k slot out).keep_other ?_
    intro hx; rw [hx] at h3; simp [Action.asReduce] at h3

/-- The next write-results task keeps the trace in order. -/
theorem TraceInv.emit_write {w t p : Nat} {trace : List Action} (h : TraceInv w t p trace) :
    TraceInv (w + 1) t p (trace ++ [Action.task_s2mm w (OutputSlot.select w)]) := by
  refine ⟨?_, ?_, ?_, ?_, ?_⟩
  · rw [List.filterMap_append, h.writes, List.range_succ]; simp [Action.asWrite]
  · rw [List.filterMap_append, h.migrates]; simp [Action.asMigrate]
  · rw [List.filterMap_append, h.reductions]; simp [Action.asReduce]
  · intro k slot
    exact (h.migrate_after k slot).keep_other (by simp)
  · intro k slot out
    exact (h.reduce_after k slot out).keep_other (by simp)

/-- The next migration keeps the trace in order if a barrier has followed the write-results
task of its number. -/
theorem TraceInv.emit_migrate {w t p : Nat} {trace : List Action} (h : TraceInv w t p trace)
    (hb : BarrierAfter trace (Action.task_s2mm t (OutputSlot.select t))) :
    TraceInv w (t + 1) p (trace ++ [Action.migrate_output_to_host t (OutputSlot.select t)]) := by
  refine ⟨?_, ?_, ?_, ?_, ?_⟩
  · rw [List.filterMap_append, h.writes]; simp [Action.asWrite]
  · rw [List.filterMap_append, h.migrates, List.range_succ]; simp [Action.asMigrate]
  · rw [List.filterMap_append, h.reductions]; simp [Action.asReduce]
  · intro k slot
    by_cases hk : Action.migrate_output_to_host t (OutputSlot.select t) =
        Action.migrate_output_to_host k slot
    · injection hk with hk1 hk2
      subst hk1; subst hk2
      exact (h.migrate_after _ _).keep_after hb
    · exact (h.migrate_after k slot).keep_other hk
  · intro k slot out
    exact (h.reduce_after k slot out).keep_other (by simp)

/-- The next reduction keeps the trace in order if a barrier has followed the migration of its
number. -/
theorem TraceInv.emit_reduce {w t p : Nat} {trace : List Action} (h : TraceInv w t p trace)
    (hb : BarrierAfter trace (Action.migrate_output_to_host p (OutputSlot.select p))) :
    TraceInv w t (p + 1) (trace ++ [Action.post_process p (OutputSlot.select p) p]) := by
  refine ⟨?_, ?_, ?_, ?_, ?_⟩
  · rw [List.filterMap_append, h.writes]; simp [Action.asWrite]
  · rw [List.filterMap_append, h.migrates]; simp [Action.asMigrate]
  · rw [List.filterMap_append, h.reductions, List.range_succ]; simp [Action.asReduce]
  · intro k slot
    exact (h.migrate_after k slot).keep_other (by simp)
  · intro k slot out
    by_cases hk : Action.post_process p (OutputSlot.select p) p = Action.post_process k slot out
    · injection hk with hk1 hk2 hk3
      subst hk1; subst hk2; subst hk3
      exact (h.reduce_after _ _ _).keep_after hb
    · exact (h.reduce_after k slot out).keep_other hk

/-- A write-results task whose number is below the count is in the trace. -/
theorem TraceInv.write_mem {w t p : Nat} {trace : List Action} (h : TraceInv w t p trace)
    {k : Nat} (hk : k < w) : Action.task_s2mm k (OutputSlot.select k) ∈ trace := by
  have hmem : (k, OutputSlot.select k) ∈ trace.filterMap Action.asWrite := by
    rw [h.writes, List.mem_map]
    exact ⟨k, List.mem_range.mpr hk, rfl⟩
  rw [List.mem_filterMap] at hmem
  obtain ⟨a, ha, heq⟩ := hmem
  cases a <;> simp [Action.asWrite] at heq
  obtain ⟨h1, h2⟩ := heq
  subst h1; subst h2
  exact ha

/-- A migration whose number is below the count is in the trace. -/
theorem TraceInv.migrate_mem {w t p : Nat} {trace : List Action} (h : TraceInv w t p trace)
    {k : Nat} (hk : k < t) : Action.migrate_output_to_host k (OutputSlot.select k) ∈ trace := by
  have hmem : (k, OutputSlot.select k) ∈ trace.filterMap Action.asMigrate := by
    rw [h.migrates, List.mem_map]
    exact ⟨k, List.mem_range.mpr hk, rfl⟩
  rw [List.mem_filterMap] at hmem
  obtain ⟨a, ha, heq⟩ := hmem
  cases a <;> simp [Action.asMigrate] at heq
  obtain ⟨h1, h2⟩ := heq
  subst h1; subst h2
  exact ha


/-- A reduction whose number is below the count is in the trace. -/
theorem TraceInv.reduce_mem {w t p : Nat} {trace : List Action} (h : TraceInv w t p trace)
    {k : Nat} (hk : k < p) : Action.post_process k (OutputSlot.select k) k ∈ trace := by
  have hmem : (k, OutputSlot.select k, k) ∈ trace.filterMap Action.asReduce := by
    rw [h.reductions, List.mem_map]
    exact ⟨k, List.mem_range.mpr hk, rfl⟩
  rw [List.mem_filterMap] at hmem
  obtain ⟨a, ha, heq⟩ := hmem
  cases a <;> simp [Action.asReduce] at heq
  obtain ⟨h1, h2, h3⟩ := heq
  subst h1; subst h2; subst h3
  exact ha

theorem TraceInv.append_other {w t p : Nat} (l : List Action) :
    ∀ {trace : List Action}, TraceInv w t p trace →
      (∀ x ∈ l, x.asWrite = none ∧ x.asMigrate = none ∧ x.asReduce = none) →
      TraceInv w t p (trace ++ l) := by
  induction l with
  | nil => intro trace h _; simpa using h
  | cons x l ih =>
    intro trace h hl
    have hx := hl x (List.mem_cons_self x l)
    have := ih (h.emit_other x hx.1 hx.2.1 hx.2.2) (fun y hy => hl y (List.mem_cons_of_mem x hy))
    simpa using this

theorem BarrierAfter.of_mem_append {trace l : List Action} {a : Action} (h : a ∈ trace)
    (hf : Action.finish ∈ l) : BarrierAfter (trace ++ l) a := by
  obtain ⟨l1, l2, rfl⟩ := List.append_of_mem h
  obtain ⟨l3, l4, rfl⟩ := List.append_of_mem hf
  exact ⟨l1, l2 ++ l3, l4, by simp⟩

/-! ## Pipeline orchestrator: one step -/

/-- The housekeeping step on a state whose trace is in order, when a barrier has followed the
write-results task of a pending transfer and the migration of a pending reduction. -/
theorem do_work_for_output_spec {w : Nat} (s : PipelineState)
    (h : TraceInv w s.transferred_outputs s.processed_outputs s.trace)
    (hout : s.out = s.processed_outputs)
    (hT : s.has_output_to_transfer = true → BarrierAfter s.trace
      (Action.task_s2mm s.transferred_outputs (OutputSlot.select s.transferred_outputs)))
    (hP : s.has_output_to_process = true → BarrierAfter s.trace
      (Action.migrate_output_to_host s.processed_outputs
        (OutputSlot.select s.processed_outputs))) :
    TraceInv w (do_work_for_output s).transferred_outputs
      (do_work_for_output s).processed_outputs (do_work_for_output s).trace ∧
    (do_work_for_output s).out = (do_work_for_output s).processed_outputs ∧
    (do_work_for_output s).transferred_outputs =
      s.transferred_outputs + (if s.has_output_to_transfer then 1 else 0) ∧
    (do_work_for_output s).processed_outputs =
      s.processed_outputs + (if s.has_output_to_process then 1 else 0) ∧
    (do_work_for_output s).has_output_to_process = s.has_output_to_transfer := by
  obtain ⟨T, P, t, p, o, sc, trace⟩ := s
  dsimp only at h hout hT hP
  subst hout
  cases T <;> cases P
  · simp only [do_work_for_output, do_postprocessing, PipelineState.emit]
    simp only [Bool.false_eq_true, if_false, Nat.add_zero, and_true]
    exact h.emit_other Action.flush rfl rfl rfl
  · simp only [do_work_for_output, do_postprocessing, PipelineState.emit]
    simp only [Bool.false_eq_true, if_false, if_true, Nat.add_zero, and_true]
    exact (h.emit_other Action.flush rfl rfl rfl).emit_reduce ((hP rfl).append _)
  · simp only [do_work_for_output, do_postprocessing, PipelineState.emit]
    simp only [Bool.false_eq_true, if_false, if_true, Nat.add_zero, and_true]
    exact (h.emit_migrate (hT rfl)).emit_other Action.flush rfl rfl rfl
  · simp only [do_work_for_output, do_postprocessing, PipelineState.emit]
    simp only [if_true, and_true]
    exact ((h.emit_migrate (hT rfl)).emit_other Action.flush rfl rfl rfl).emit_reduce
      (((hP rfl).append _).append _)

/-- One step of the pipeline: actions that are not on an output buffer, a barrier among them,
then possibly the next write-results task, then the housekeeping step. -/
theorem step_spec {w : Nat} {s : PipelineState} (h : StateInv w s) (l : List Action)
    (hl : ∀ x ∈ l, x.asWrite = none ∧ x.asMigrate = none ∧ x.asReduce = none)
    (hf : Action.finish ∈ l) (wr : Bool) (f : Nat → Nat) :
    StateInv (w + if wr then 1 else 0)
      { do_work_for_output
          { s with trace := (s.trace ++ l) ++
              (if wr then [Action.task_s2mm w (OutputSlot.select w)] else []) } with
        has_output_to_transfer := wr
        scalars := f (do_work_for_output
          { s with trace := (s.trace ++ l) ++
              (if wr then [Action.task_s2mm w (OutputSlot.select w)] else []) }).scalars } := by
  have hw := h.written
  have ht := h.transferred
  have htr : TraceInv (w + if wr then 1 else 0) s.transferred_outputs s.processed_outputs
      ((s.trace ++ l) ++ (if wr then [Action.task_s2mm w (OutputSlot.select w)] else [])) := by
    cases wr
    · simpa using h.trace_inv.append_other l hl
    · simpa using (h.trace_inv.append_other l hl).emit_write
  have hT : s.has_output_to_transfer = true →
      BarrierAfter ((s.trace ++ l) ++
          (if wr then [Action.task_s2mm w (OutputSlot.select w)] else []))
        (Action.task_s2mm s.transferred_outputs (OutputSlot.select s.transferred_outputs)) := by
    intro hT
    rw [hT] at hw
    exact (BarrierAfter.of_mem_append (h.trace_inv.write_mem (by simp at hw; omega)) hf).append _
  have hP : s.has_output_to_process = true →
      BarrierAfter ((s.trace ++ l) ++
          (if wr then [Action.task_s2mm w (OutputSlot.select w)] else []))
        (Action.migrate_output_to_host s.processed_outputs
          (OutputSlot.select s.processed_outputs)) := by
    intro hP
    rw [hP] at ht
    exact (BarrierAfter.of_mem_append (h.trace_inv.migrate_mem (by simp at ht; omega)) hf).append _
  obtain ⟨h1, h2, h3, h4, h5⟩ := do_work_for_output_spec
    { s with trace := (s.trace ++ l) ++
        (if wr then [Action.task_s2mm w (OutputSlot.select w)] else []) }
    htr h.out_eq hT hP
  dsimp only at h3 h4 h5
  refine ⟨h1, h2, ?_, ?_⟩
  · dsimp only
    rw [h3]
    omega
  · dsimp only
    rw [h3, h4, h5]
    omega


/-- The body of the chunk loop, for batch `b` after `b` write-results tasks: the last chunk
adds the write-results task of batch `b`. -/
theorem chunk_step_spec (d : Driver) (b c : Nat) {s : PipelineState} (h : StateInv b s) :
    StateInv (b + if c = sub64 d.num_input_chunks 1 then 1 else 0) (chunk_step d b s c) := by
  have key := step_spec h
    [Action.memcpy_scalars
        (mul64 (mul64 c d.max_num_points_per_chunk) UINT32_PER_INPUT_SCALAR) s.scalars
        (mul64 (mul64 UINT32_PER_INPUT_SCALAR 4) (d.get_num_points_in_chunk c)),
      Action.migrate_scalars_to_device c,
      Action.finish,
      Action.task_mm2s_points c
        (round_up_to_multiple_of_16 (mul64 (d.get_num_points_in_chunk c) UINT32_PER_INPUT_POINT))
        (decide (c = sub64 d.num_input_chunks 1)),
      Action.task_mm2s_scalars c
        (round_up_to_multiple_of_16 (mul64 (d.get_num_points_in_chunk c) UINT32_PER_INPUT_SCALAR))
        (decide (c = sub64 d.num_input_chunks 1))]
    (by
      intro x hx
      simp only [List.mem_cons, List.mem_singleton, List.not_mem_nil, or_false] at hx
      rcases hx with rfl | rfl | rfl | rfl | rfl <;> exact ⟨rfl, rfl, rfl⟩)
    (by simp)
    (decide (c = sub64 d.num_input_chunks 1))
    (fun sc => sc + d.get_num_points_in_chunk c)
  unfold chunk_step PipelineState.emit
  by_cases hc : c = sub64 d.num_input_chunks 1
  · simpa [hc] using key
  · simpa [hc] using key

/-- The housekeeping step copies `has_output_to_transfer` to `has_output_to_process`. -/
theorem do_work_for_output_process (s : PipelineState) :
    (do_work_for_output s).has_output_to_process = s.has_output_to_transfer := by
  unfold do_work_for_output do_postprocessing PipelineState.emit
  dsimp only
  split <;> split <;> rfl

/-- The body of the drain loop keeps the state in order and clears `has_output_to_transfer`;
a reduction is pending afterwards exactly if a transfer was pending before. -/
theorem drain_step_spec {w : Nat} {s : PipelineState} (h : StateInv w s) :
    StateInv w (drain_step s) ∧ (drain_step s).has_output_to_transfer = false ∧
    (drain_step s).has_output_to_process = s.has_output_to_transfer := by
  have key := step_spec h [Action.finish]
    (by
      intro x hx
      simp only [List.mem_singleton] at hx
      subst hx
      exact ⟨rfl, rfl, rfl⟩)
    (by simp) false (fun sc => sc)
  refine ⟨?_, rfl, ?_⟩
  · unfold drain_step PipelineState.emit
    simpa using key
  · exact do_work_for_output_process (s.emit Action.finish)

/-! ## Pipeline orchestrator: the loops -/

theorem num_input_chunks_lt (d : Driver) : d.num_input_chunks < 2 ^ 64 := by
  unfold Driver.num_input_chunks shr64 sub64 UINT64_SIZE
  exact Nat.lt_of_le_of_lt (Nat.div_le_self _ _) (Nat.mod_lt _ (by decide))

/-- A batch adds one write-results task, in its last chunk. -/
theorem batch_step_spec (d : Driver) (hC : 1 ≤ d.num_input_chunks) (b : Nat)
    {s : PipelineState} (h : StateInv b s) : StateInv (b + 1) (batch_step d s b) := by
  have hlast : sub64 d.num_input_chunks 1 = d.num_input_chunks - 1 :=
    sub64_eq hC (num_input_chunks_lt d)
  have hloop : ∀ i, i ≤ d.num_input_chunks →
      StateInv (b + if i = d.num_input_chunks then 1 else 0)
        ((List.range i).foldl (chunk_step d b) s) := by
    intro i
    induction i with
    | zero =>
      intro _
      rw [if_neg (by omega)]
      exact h
    | succ i ih =>
      intro hi
      have hprev := ih (by omega)
      rw [if_neg (by omega)] at hprev
      rw [List.range_succ, List.foldl_append, List.foldl_cons, List.foldl_nil]
      have hstep := chunk_step_spec d b i hprev
      rw [hlast] at hstep
      by_cases hc : i + 1 = d.num_input_chunks
      · rw [if_pos hc]
        rw [if_pos (by omega)] at hstep
        exact hstep
      · rw [if_neg hc]
        rw [if_neg (by omega)] at hstep
        exact hstep
  have := hloop d.num_input_chunks (le_refl _)
  rw [if_pos rfl] at this
  exact this

theorem StateInv.at_init : StateInv 0 PipelineState.init :=
  ⟨TraceInv.nil, rfl, rfl, rfl⟩

/-- After the loop over the batches, one write-results task per batch has been enqueued. -/
theorem enqueue_batches_spec (d : Driver) (hC : 1 ≤ d.num_input_chunks) (num_batches : Nat) :
    StateInv num_batches (enqueue_batches d num_batches) := by
  unfold enqueue_batches
  induction num_batches with
  | zero => exact StateInv.at_init
  | succ n ih =>
    rw [List.range_succ, List.foldl_append, List.foldl_cons, List.foldl_nil]
    exact batch_step_spec d hC n ih

/-- The drain loop ends within three tests of its condition, with every batch migrated and
reduced. -/
theorem drain_spec (num_batches : Nat) {s : PipelineState} (h : StateInv num_batches s)
    (fuel : Nat) (hfuel : 3 ≤ fuel) :
    ∃ s', drain num_batches fuel s = some s' ∧ StateInv num_batches s' ∧
      s'.processed_outputs = num_batches ∧ s'.transferred_outputs = num_batches := by
  obtain ⟨f, rfl⟩ : ∃ f, fuel = f + 3 := ⟨fuel - 3, by omega⟩
  have hw := h.written
  have ht := h.transferred
  rw [drain]
  by_cases hp : s.processed_outputs < num_batches
  · rw [if_pos hp]
    obtain ⟨h1, hT1, _⟩ := drain_step_spec h
    have hw1 := h1.written
    have ht1 := h1.transferred
    rw [hT1] at hw1
    rw [drain]
    by_cases hp1 : (drain_step s).processed_outputs < num_batches
    · rw [if_pos hp1]
      obtain ⟨h2, hT2, hP2⟩ := drain_step_spec h1
      have hw2 := h2.written
      have ht2 := h2.transferred
      rw [hT2] at hw2
      rw [hP2, hT1] at ht2
      simp only [Bool.false_eq_true, if_false, Nat.add_zero] at hw2 ht2
      rw [drain, if_neg (by omega)]
      exact ⟨_, rfl, h2, by omega, by omega⟩
    · rw [if_neg hp1]
      simp only [Bool.false_eq_true, if_false, Nat.add_zero] at hw1
      refine ⟨_, rfl, h1, ?_, by omega⟩
      split at ht1 <;> omega
  · rw [if_neg hp]
    refine ⟨_, rfl, h, ?_, ?_⟩
    · split at hw <;> split at ht <;> omega
    · split at hw <;> split at ht <;> omega

/-- With at least one chunk per batch, `run_asynchronous` returns, and every batch has been
written, migrated and reduced in order. -/
theorem run_asynchronous_spec (d : Driver) (hC : 1 ≤ d.num_input_chunks)
    (num_batches fuel : Nat) (hfuel : 3 ≤ fuel) :
    ∃ s, run_asynchronous d num_batches fuel = some s ∧ StateInv num_batches s ∧
      s.processed_outputs = num_batches ∧ s.transferred_outputs = num_batches :=
  drain_spec num_batches (enqueue_batches_spec d hC num_batches) fuel hfuel


/-! ## Pipeline orchestrator: the driver has a chunk -/

/-- When the loop of the planner returns an exponent, the shift was defined and the loop
condition was false at it. -/
theorem calc_log_loop_some (n : Nat) :
    ∀ fuel log e, calc_log_loop n fuel log = some e →
      e < 64 ∧ n ≤ mul64 max_allowed_num_chunks (shl64 1 e) := by
  intro fuel
  induction fuel with
  | zero => intro log e h; simp [calc_log_loop] at h
  | succ fuel ih =>
    intro log e h
    rw [calc_log_loop] at h
    split at h
    · exact absurd h (by simp)
    · split at h
      · exact ih _ _ h
      · have hle : log = e := by simpa using h
        subst hle
        exact ⟨by omega, by omega⟩

/-- A driver constructed for at least one point has at least one chunk. -/
theorem Driver.new_has_chunk {n : Nat} {d : Driver} (hn : 0 < n) (hd : Driver.new n = some d) :
    1 ≤ d.num_input_chunks := by
  unfold Driver.new calc_log_max_num_points_per_chunk at hd
  rw [Option.map_map, Option.map_eq_some'] at hd
  obtain ⟨e, he, hd⟩ := hd
  obtain ⟨h64, hcover⟩ := calc_log_loop_some n 64 18 e he
  have h61 : e ≤ 61 := by
    by_contra hgt
    have h0 : mul64 max_allowed_num_chunks (shl64 1 e) = 0 := by
      have : e = 62 ∨ e = 63 := by omega
      rcases this with rfl | rfl <;> decide
    omega
  rw [mul64_shl64_small h61] at hcover
  have hmod : e % 2 ^ 32 = e := Nat.mod_eq_of_lt (by
    have : (2 : Nat) ^ 32 = 4294967296 := by norm_num
    omega)
  simp only [Function.comp_def, hmod] at hd
  subst hd
  obtain ⟨k, hk, _⟩ := plannedChunks h61 hn hcover
  rw [hk]
  omega

/-! ## Pipeline orchestrator: the claims -/

/-- C3: for every driver constructed for at least one point (it has at least one chunk) and
every number of batches, `run_asynchronous` returns as soon as the drain loop may test its
condition three times, and on return every batch has been reduced exactly once, in submission
order: `processed_outputs = transferred_outputs = num_batches`, there are `num_batches`
reductions, and the `k`-th reads output buffer A for an even `k` and B for an odd one and
copies its result to `out[k]`. -/
theorem run_asynchronous_reduces_every_batch (n : Nat) (d : Driver) (hn : 0 < n)
    (hd : Driver.new n = some d) (num_batches fuel : Nat) (hfuel : 3 ≤ fuel) :
    1 ≤ d.num_input_chunks ∧
    ∃ s, run_asynchronous d num_batches fuel = some s ∧
      s.processed_outputs = num_batches ∧ s.transferred_outputs = num_batches ∧
      (s.trace.filterMap Action.asReduce).length = num_batches ∧
      s.trace.filterMap Action.asReduce = (List.range num_batches).map
        (fun k => (k, if k % 2 = 0 then OutputSlot.A else OutputSlot.B, k)) := by
  have hC := Driver.new_has_chunk hn hd
  obtain ⟨s, hs, hinv, hp, ht⟩ := run_asynchronous_spec d hC num_batches fuel hfuel
  have hred := hinv.trace_inv.reductions
  rw [hp] at hred
  refine ⟨hC, s, hs, hp, ht, ?_, hred⟩
  rw [hred, List.length_map, List.length_range]

/-- C3, for a driver of 5 points and 3 batches. -/
theorem run_asynchronous_reduces_every_batch_witness :
    0 < 5 ∧ Driver.new 5 = some ⟨18, 5⟩ ∧ 3 ≤ 3 ∧
    (1 ≤ Driver.num_input_chunks ⟨18, 5⟩ ∧
    ∃ s, run_asynchronous ⟨18, 5⟩ 3 3 = some s ∧
      s.processed_outputs = 3 ∧ s.transferred_outputs = 3 ∧
      (s.trace.filterMap Action.asReduce).length = 3 ∧
      s.trace.filterMap Action.asReduce = (List.range 3).map
        (fun k => (k, if k % 2 = 0 then OutputSlot.A else OutputSlot.B, k))) :=
  ⟨by decide, by decide, by decide,
    run_asynchronous_reduces_every_batch 5 ⟨18, 5⟩ (by decide) (by decide) 3 3 (by decide)⟩

/-- C10: for every driver with at least one chunk and every number of batches, in the trace of
`run_asynchronous` the write-results task, the migration to the host and the reduction of batch
`k < num_batches` are all on the output buffer selected by `k mod 2`; these are the only
write-results tasks, migrations and reductions, in the order of the batches; a migration is
enqueued only after a barrier `q.finish()` that comes after the write-results task of its
batch; and a reduction starts only after a barrier that comes after the migration of its batch
and buffer was enqueued. -/
theorem run_asynchronous_sequencing (d : Driver) (hC : 1 ≤ d.num_input_chunks)
    (num_batches fuel : Nat) (hfuel : 3 ≤ fuel) :
    ∃ s, run_asynchronous d num_batches fuel = some s ∧
      (∀ k, k < num_batches →
        Action.task_s2mm k (OutputSlot.select k) ∈ s.trace ∧
        Action.migrate_output_to_host k (OutputSlot.select k) ∈ s.trace ∧
        Action.post_process k (OutputSlot.select k) k ∈ s.trace) ∧
      s.trace.filterMap Action.asWrite =
        (List.range num_batches).map (fun k => (k, OutputSlot.select k)) ∧
      s.trace.filterMap Action.asMigrate =
        (List.range num_batches).map (fun k => (k, OutputSlot.select k)) ∧
      s.trace.filterMap Action.asReduce =
        (List.range num_batches).map (fun k => (k, OutputSlot.select k, k)) ∧
      (∀ k slot pre post, s.trace = pre ++ Action.migrate_output_to_host k slot :: post →
        ∃ l1 l2 l3, pre = l1 ++ Action.task_s2mm k slot :: l2 ++ Action.finish :: l3) ∧
      (∀ k slot out pre post, s.trace = pre ++ Action.post_process k slot out :: post →
        ∃ l1 l2 l3,
          pre = l1 ++ Action.migrate_output_to_host k slot :: l2 ++ Action.finish :: l3) := by
  obtain ⟨s, hs, hinv, hp, ht⟩ := run_asynchronous_spec d hC num_batches fuel hfuel
  have htr := hinv.trace_inv
  rw [hp, ht] at htr
  refine ⟨s, hs, ?_, htr.writes, htr.migrates, htr.reductions, ?_, ?_⟩
  · intro k hk
    exact ⟨htr.write_mem hk, htr.migrate_mem hk, htr.reduce_mem hk⟩
  · intro k slot pre post h
    exact htr.migrate_after k slot pre post h
  · intro k slot out pre post h
    exact htr.reduce_after k slot out pre post h

/-- C10, for a driver of 5 points and 3 batches. -/
theorem run_asynchronous_sequencing_witness :
    1 ≤ Driver.num_input_chunks ⟨18, 5⟩ ∧ 3 ≤ 3 ∧
    ∃ s, run_asynchronous ⟨18, 5⟩ 3 3 = some s ∧
      (∀ k, k < 3 →
        Action.task_s2mm k (OutputSlot.select k) ∈ s.trace ∧
        Action.migrate_output_to_host k (OutputSlot.select k) ∈ s.trace ∧
        Action.post_process k (OutputSlot.select k) k ∈ s.trace) ∧
      s.trace.filterMap Action.asWrite =
        (List.range 3).map (fun k => (k, OutputSlot.select k)) ∧
      s.trace.filterMap Action.asMigrate =
        (List.range 3).map (fun k => (k, OutputSlot.select k)) ∧
      s.trace.filterMap Action.asReduce =
        (List.range 3).map (fun k => (k, OutputSlot.select k, k)) ∧
      (∀ k slot pre post, s.trace = pre ++ Action.migrate_output_to_host k slot :: post →
        ∃ l1 l2 l3, pre = l1 ++ Action.task_s2mm k slot :: l2 ++ Action.finish :: l3) ∧
      (∀ k slot out pre post, s.trace = pre ++ Action.post_process k slot out :: post →
        ∃ l1 l2 l3,
          pre = l1 ++ Action.migrate_output_to_host k slot :: l2 ++ Action.finish :: l3) :=
  ⟨by decide, by decide, run_asynchronous_sequencing ⟨18, 5⟩ (by decide) 3 3 (by decide)⟩

/-! ## Pipeline orchestrator: reuse of an output buffer -/

theorem OnlyAfter.snoc_other {trace : List Action} {a c x : Action}
    (h : OnlyAfter trace a c) (hx : x ≠ c) : OnlyAfter (trace ++ [x]) a c := by
  intro pre post heq
  rcases append_singleton_eq_append_cons heq with ⟨_, _, h3⟩ | ⟨post', _, h2⟩
  · exact absurd h3 hx
  · exact h pre post' h2

theorem OnlyAfter.snoc_same {trace : List Action} {a c : Action}
    (h : OnlyAfter trace a c) (ha : a ∈ trace) : OnlyAfter (trace ++ [c]) a c := by
  intro pre post heq
  rcases append_singleton_eq_append_cons heq with ⟨_, h2, _⟩ | ⟨post', _, h2⟩
  · rw [h2]; exact ha
  · exact h pre post' h2

theorem OnlyAfter.append_absent {a c : Action} (l : List Action) :
    ∀ {trace : List Action}, OnlyAfter trace a c → c ∉ l → OnlyAfter (trace ++ l) a c := by
  induction l with
  | nil => intro trace h _; simpa using h
  | cons x l ih =>
    intro trace h hl
    have hx : x ≠ c := fun hxc => hl (by rw [hxc]; exact List.mem_cons_self c l)
    have := ih (h.snoc_other hx) (fun hc => hl (List.mem_cons_of_mem x hc))
    simpa using this

theorem OnlyAfterBarrierAfter.append_absent_barrier {a c : Action} (l : List Action) :
    ∀ {trace : List Action}, OnlyAfterBarrierAfter trace a c → c ∉ l →
      OnlyAfterBarrierAfter (trace ++ l) a c := by
  induction l with
  | nil => intro trace h _; simpa using h
  | cons x l ih =>
    intro trace h hl
    have hx : x ≠ c := fun hxc => hl (by rw [hxc]; exact List.mem_cons_self c l)
    have := ih (h.keep_other hx) (fun hc => hl (List.mem_cons_of_mem x hc))
    simpa using this

/-- The actions the housekeeping step adds to the trace. -/
theorem do_work_for_output_trace (s : PipelineState) :
    (do_work_for_output s).trace =
      ((s.trace ++
        (if s.has_output_to_transfer then
          [Action.migrate_output_to_host s.transferred_outputs
            (OutputSlot.select s.transferred_outputs)] else [])) ++ [Action.flush]) ++
        (if s.has_output_to_process then
          [Action.post_process s.processed_outputs (OutputSlot.select s.processed_outputs) s.out]
          else []) := by
  obtain ⟨T, P, t, p, o, sc, trace⟩ := s
  cases T <;> cases P <;> simp [do_work_for_output, do_postprocessing, PipelineState.emit]

theorem ReuseInv.empty_trace (multi : Prop) : ReuseInv multi [] := by
  refine ⟨?_, ?_, ?_⟩
  · intro k slot pre post h
    exact absurd h (by simp)
  · intro k slot pre post h
    exact absurd h (by simp)
  · intro _ k slot pre post h
    exact absurd h (by simp)

/-- One step of the pipeline keeps the reuse of the output buffers in order. When a batch has
two chunks or more, the step with the write-results task starts with no transfer pending. -/
theorem step_reuse {multi : Prop} {w : Nat} {s : PipelineState} (h : StateInv w s)
    (hr : ReuseInv multi s.trace) (l : List Action)
    (hl : ∀ x ∈ l, x.asWrite = none ∧ x.asMigrate = none ∧ x.asReduce = none)
    (hf : Action.finish ∈ l) (wr : Bool)
    (hT : multi → wr = true → s.has_output_to_transfer = false) :
    ReuseInv multi (do_work_for_output
      { s with trace := (s.trace ++ l) ++
          (if wr then [Action.task_s2mm w (OutputSlot.select w)] else []) }).trace := by
  have hw := h.written
  have ht := h.transferred
  have htle : w ≤ s.transferred_outputs + 1 := by split at hw <;> omega
  have hple : s.transferred_outputs ≤ s.processed_outputs + 1 := by split at ht <;> omega
  rw [do_work_for_output_trace]
  dsimp only
  have hwl : ∀ k slot, Action.task_s2mm k slot ∉ l := fun k slot hc => by
    have := (hl _ hc).1
    simp [Action.asWrite] at this
  have hml : ∀ k slot, Action.migrate_output_to_host k slot ∉ l := fun k slot hc => by
    have := (hl _ hc).2.1
    simp [Action.asMigrate] at this
  refine ⟨?_, ?_, ?_⟩
  · intro k slot
    have h1 := (hr.write_after_migrate k slot).append_absent_barrier l (hwl _ _)
    have h2 : OnlyAfterBarrierAfter ((s.trace ++ l) ++
        (if wr then [Action.task_s2mm w (OutputSlot.select w)] else []))
        (Action.migrate_output_to_host k (OutputSlot.select k))
        (Action.task_s2mm (k + 2) slot) := by
      cases wr
      · simpa using h1
      · simp only [if_true]
        by_cases hk : Action.task_s2mm w (OutputSlot.select w) = Action.task_s2mm (k + 2) slot
        · injection hk with hk1 hk2
          subst hk1; subst hk2
          exact h1.keep_after
            (BarrierAfter.of_mem_append (h.trace_inv.migrate_mem (by omega)) hf)
        · exact h1.keep_other hk
    refine OnlyAfterBarrierAfter.append_absent_barrier _
      (OnlyAfterBarrierAfter.append_absent_barrier _
        (OnlyAfterBarrierAfter.append_absent_barrier _ h2 ?_) ?_) ?_
    · split <;> simp
    · simp
    · split <;> simp
  · intro k slot
    have h1 := (hr.migrate_after_reduce k slot).append_absent l (hml _ _)
    have h2 : OnlyAfter ((s.trace ++ l) ++
        (if wr then [Action.task_s2mm w (OutputSlot.select w)] else []))
        (Action.post_process k (OutputSlot.select k) k)
        (Action.migrate_output_to_host (k + 2) slot) :=
      OnlyAfter.append_absent _ h1 (by split <;> simp)
    have h3 : OnlyAfter (((s.trace ++ l) ++
        (if wr then [Action.task_s2mm w (OutputSlot.select w)] else [])) ++
        (if s.has_output_to_transfer then
          [Action.migrate_output_to_host s.transferred_outputs
            (OutputSlot.select s.transferred_outputs)] else []))
        (Action.post_process k (OutputSlot.select k) k)
        (Action.migrate_output_to_host (k + 2) slot) := by
      by_cases hT' : s.has_output_to_transfer = true
      · simp only [hT', if_true]
        by_cases hk : Action.migrate_output_to_host s.transferred_outputs
            (OutputSlot.select s.transferred_outputs) =
            Action.migrate_output_to_host (k + 2) slot
        · injection hk with hk1 hk2
          subst hk2
          rw [← hk1] at h2 ⊢
          exact h2.snoc_same (List.mem_append_left _ (List.mem_append_left _
            (h.trace_inv.reduce_mem (by omega))))
        · exact h2.snoc_other hk
      · simp only [hT', if_false]
        simpa using h2
    refine OnlyAfter.append_absent _ (OnlyAfter.append_absent _ h3 ?_) ?_
    · simp
    · split <;> simp
  · intro hmulti k slot
    have h1 := (hr.write_after_reduce hmulti k slot).append_absent l (hwl _ _)
    have h2 : OnlyAfter ((s.trace ++ l) ++
        (if wr then [Action.task_s2mm w (OutputSlot.select w)] else []))
        (Action.post_process k (OutputSlot.select k) k)
        (Action.task_s2mm (k + 2) slot) := by
      cases wr
      · simpa using h1
      · simp only [if_true]
        by_cases hk : Action.task_s2mm w (OutputSlot.select w) = Action.task_s2mm (k + 2) slot
        · injection hk with hk1 hk2
          subst hk1; subst hk2
          have hTf := hT hmulti rfl
          rw [hTf] at hw
          simp only [Bool.false_eq_true, if_false, Nat.add_zero] at hw
          exact h1.snoc_same (List.mem_append_left _ (h.trace_inv.reduce_mem (by omega)))
        · exact h1.snoc_other hk
    refine OnlyAfter.append_absent _ (OnlyAfter.append_absent _
      (OnlyAfter.append_absent _ h2 ?_) ?_) ?_
    · split <;> simp
    · simp
    · split <;> simp

/-- The body of the chunk loop keeps the reuse of the output buffers in order. -/
theorem chunk_step_reuse {multi : Prop} (d : Driver) (b c : Nat) {s : PipelineState}
    (h : StateInv b s) (hr : ReuseInv multi s.trace)
    (hT : multi → c = sub64 d.num_input_chunks 1 → s.has_output_to_transfer = false) :
    ReuseInv multi (chunk_step d b s c).trace := by
  have key := step_reuse h hr
    [Action.memcpy_scalars
        (mul64 (mul64 c d.max_num_points_per_chunk) UINT32_PER_INPUT_SCALAR) s.scalars
        (mul64 (mul64 UINT32_PER_INPUT_SCALAR 4) (d.get_num_points_in_chunk c)),
      Action.migrate_scalars_to_device c,
      Action.finish,
      Action.task_mm2s_points c
        (round_up_to_multiple_of_16 (mul64 (d.get_num_points_in_chunk c) UINT32_PER_INPUT_POINT))
        (decide (c = sub64 d.num_input_chunks 1)),
      Action.task_mm2s_scalars c
        (round_up_to_multiple_of_16 (mul64 (d.get_num_points_in_chunk c) UINT32_PER_INPUT_SCALAR))
        (decide (c = sub64 d.num_input_chunks 1))]
    (by
      intro x hx
      simp only [List.mem_cons, List.mem_singleton, List.not_mem_nil, or_false] at hx
      rcases hx with rfl | rfl | rfl | rfl | rfl <;> exact ⟨rfl, rfl, rfl⟩)
    (by simp)
    (decide (c = sub64 d.num_input_chunks 1))
    (fun hm hwr => hT hm (of_decide_eq_true hwr))
  unfold chunk_step PipelineState.emit
  by_cases hc : c = sub64 d.num_input_chunks 1
  · simpa [hc] using key
  · simpa [hc] using key

/-- The body of the drain loop keeps the reuse of the output buffers in order. -/
theorem drain_step_reuse {multi : Prop} {w : Nat} {s : PipelineState} (h : StateInv w s)
    (hr : ReuseInv multi s.trace) : ReuseInv multi (drain_step s).trace := by
  have key := step_reuse h hr [Action.finish]
    (by
      intro x hx
      simp only [List.mem_singleton] at hx
      subst hx
      exact ⟨rfl, rfl, rfl⟩)
    (by simp) false (fun _ hwr => absurd hwr (by simp))
  unfold drain_step PipelineState.emit
  simpa using key

/-- A batch keeps the reuse of the output buffers in order; with two chunks or more, no
transfer is pending when its last chunk starts. -/
theorem batch_step_reuse (d : Driver) (hC : 1 ≤ d.num_input_chunks) (b : Nat)
    {s : PipelineState} (h : StateInv b s) (hr : ReuseInv (2 ≤ d.num_input_chunks) s.trace) :
    ReuseInv (2 ≤ d.num_input_chunks) (batch_step d s b).trace := by
  have hlast : sub64 d.num_input_chunks 1 = d.num_input_chunks - 1 :=
    sub64_eq hC (num_input_chunks_lt d)
  have hloop : ∀ i, i ≤ d.num_input_chunks →
      StateInv (b + if i = d.num_input_chunks then 1 else 0)
        ((List.range i).foldl (chunk_step d b) s) ∧
      ReuseInv (2 ≤ d.num_input_chunks) ((List.range i).foldl (chunk_step d b) s).trace ∧
      (1 ≤ i → i < d.num_input_chunks →
        ((List.range i).foldl (chunk_step d b) s).has_output_to_transfer = false) := by
    intro i
    induction i with
    | zero =>
      intro _
      rw [if_neg (by omega)]
      exact ⟨h, hr, fun h0 => absurd h0 (by omega)⟩
    | succ i ih =>
      intro hi
      obtain ⟨hprev, hrprev, hTprev⟩ := ih (by omega)
      rw [if_neg (by omega)] at hprev
      rw [List.range_succ, List.foldl_append, List.foldl_cons, List.foldl_nil]
      have hstep := chunk_step_spec d b i hprev
      rw [hlast] at hstep
      have hreuse := chunk_step_reuse d b i hprev hrprev
        (fun hm hc => hTprev (by rw [hlast] at hc; omega) (by omega))
      refine ⟨?_, hreuse, ?_⟩
      · by_cases hc : i + 1 = d.num_input_chunks
        · rw [if_pos hc]
          rw [if_pos (by omega)] at hstep
          exact hstep
        · rw [if_neg hc]
          rw [if_neg (by omega)] at hstep
          exact hstep
      · intro _ hlt
        have hne : ¬ i = sub64 d.num_input_chunks 1 := by rw [hlast]; omega
        show decide (i = sub64 d.num_input_chunks 1) = false
        exact decide_eq_false hne
  exact (hloop d.num_input_chunks (le_refl _)).2.1

/-- The loop over the batches keeps the reuse of the output buffers in order. -/
theorem enqueue_batches_reuse (d : Driver) (hC : 1 ≤ d.num_input_chunks) (num_batches : Nat) :
    ReuseInv (2 ≤ d.num_input_chunks) (enqueue_batches d num_batches).trace := by
  induction num_batches with
  | zero => exact ReuseInv.empty_trace _
  | succ n ih =>
    have hstate := enqueue_batches_spec d hC n
    have hunfold : enqueue_batches d (n + 1) = batch_step d (enqueue_batches d n) n := by
      unfold enqueue_batches
      rw [List.range_succ, List.foldl_append, List.foldl_cons, List.foldl_nil]
    rw [hunfold]
    exact batch_step_reuse d hC n hstate ih

/-- The drain loop keeps the reuse of the output buffers in order. -/
theorem drain_reuse {multi : Prop} (num_batches : Nat) :
    ∀ (fuel : Nat) (s s' : PipelineState), StateInv num_batches s → ReuseInv multi s.trace →
      drain num_batches fuel s = some s' → ReuseInv multi s'.trace := by
  intro fuel
  induction fuel with
  | zero => intro s s' _ _ h; simp [drain] at h
  | succ fuel ih =>
    intro s s' hs hr h
    rw [drain] at h
    split at h
    · exact ih _ _ (drain_step_spec hs).1 (drain_step_reuse hs hr) h
    · have heq : s = s' := by simpa using h
      rw [← heq]
      exact hr

/-- In the state `run_asynchronous` returns in, the reuse of the output buffers is in order. -/
theorem run_asynchronous_reuse (d : Driver) (hC : 1 ≤ d.num_input_chunks)
    (num_batches fuel : Nat) (s : PipelineState)
    (hs : run_asynchronous d num_batches fuel = some s) :
    ReuseInv (2 ≤ d.num_input_chunks) s.trace :=
  drain_reuse num_batches fuel _ s (enqueue_batches_spec d hC num_batches)
    (enqueue_batches_reuse d hC num_batches) hs

theorem OutputSlot.select_add_two (k : Nat) : OutputSlot.select (k + 2) = OutputSlot.select k := by
  unfold OutputSlot.select
  rw [Nat.add_mod_right]

/-! ## Pipeline orchestrator: the claim on the reuse of an output buffer -/

/-- C11 as stated fails: the driver constructed for 5 points has one chunk, and in its run of
three batches the write-results task of batch 2 (on buffer A, as batch 0) is the action at
position 20 of the trace, with no reduction at all among the 20 actions before it: the
write-results task of batch 2 is enqueued before the reduction of batch 0. -/
theorem slot_reuse_as_stated_fails :
    ¬ (∀ d s, Driver.new 5 = some d → 1 ≤ d.num_input_chunks →
        run_asynchronous d 3 3 = some s →
        ∀ pre post, s.trace = pre ++ Action.task_s2mm 2 (OutputSlot.select 2) :: post →
          Action.post_process 0 (OutputSlot.select 0) 0 ∈ pre) := by
  intro h
  have key : (run_asynchronous ⟨18, 5⟩ 3 3).isSome = true ∧
      (run_asynchronous ⟨18, 5⟩ 3 3).all (fun s => decide
        (s.trace = s.trace.take 20 ++
            Action.task_s2mm 2 (OutputSlot.select 2) :: s.trace.drop 21 ∧
          ∀ a ∈ s.trace.take 20, a.asReduce = none)) = true := by
    decide
  cases hrun : run_asynchronous ⟨18, 5⟩ 3 3 with
  | none =>
    rw [hrun] at key
    exact absurd key.1 (by simp)
  | some s =>
    rw [hrun] at key
    have hkey := key.2
    simp only [Option.all_some, decide_eq_true_eq] at hkey
    have hmem := h ⟨18, 5⟩ s (by decide) (by decide) hrun _ _ hkey.1
    have hnone := hkey.2 _ hmem
    simp [Action.asReduce] at hnone

/-- C11, amended: for every driver with at least one chunk and every number of batches, in the
trace of `run_asynchronous` the actions of batch `k + 2 < num_batches` are on the output buffer
of batch `k`; the write-results task of batch `k + 2` is enqueued only after a barrier
`q.finish()` that comes after the migration to the host of batch `k`; the migration to the host
of batch `k + 2`, which overwrites the host buffer the reduction reads, is enqueued only after
the reduction of batch `k`; and when a batch has two chunks or more, the write-results task of
batch `k + 2` is enqueued only after the reduction of batch `k`. -/
theorem slot_reuse_after_migration (d : Driver) (hC : 1 ≤ d.num_input_chunks)
    (num_batches fuel : Nat) (hfuel : 3 ≤ fuel) :
    ∃ s, run_asynchronous d num_batches fuel = some s ∧
      (∀ k, k + 2 < num_batches →
        OutputSlot.select (k + 2) = OutputSlot.select k ∧
        Action.task_s2mm (k + 2) (OutputSlot.select k) ∈ s.trace ∧
        Action.migrate_output_to_host (k + 2) (OutputSlot.select k) ∈ s.trace ∧
        Action.migrate_output_to_host k (OutputSlot.select k) ∈ s.trace ∧
        Action.post_process k (OutputSlot.select k) k ∈ s.trace) ∧
      (∀ k slot pre post, s.trace = pre ++ Action.task_s2mm (k + 2) slot :: post →
        ∃ l1 l2 l3, pre = l1 ++ Action.migrate_output_to_host k (OutputSlot.select k) :: l2 ++
          Action.finish :: l3) ∧
      (∀ k slot pre post, s.trace = pre ++ Action.migrate_output_to_host (k + 2) slot :: post →
        Action.post_process k (OutputSlot.select k) k ∈ pre) ∧
      (2 ≤ d.num_input_chunks →
        ∀ k slot pre post, s.trace = pre ++ Action.task_s2mm (k + 2) slot :: post →
          Action.post_process k (OutputSlot.select k) k ∈ pre) := by
  obtain ⟨s, hs, hinv, hp, ht⟩ := run_asynchronous_spec d hC num_batches fuel hfuel
  have hreuse := run_asynchronous_reuse d hC num_batches fuel s hs
  have htr := hinv.trace_inv
  rw [hp, ht] at htr
  refine ⟨s, hs, ?_, ?_, ?_, ?_⟩
  · intro k hk
    have hsel := OutputSlot.select_add_two k
    refine ⟨hsel, ?_, ?_, htr.migrate_mem (by omega), htr.reduce_mem (by omega)⟩
    · rw [← hsel]; exact htr.write_mem hk
    · rw [← hsel]; exact htr.migrate_mem hk
  · intro k slot pre post h
    exact hreuse.write_after_migrate k slot pre post h
  · intro k slot pre post h
    exact hreuse.migrate_after_reduce k slot pre post h
  · intro hmulti k slot pre post h
    exact hreuse.write_after_reduce hmulti k slot pre post h

/-- C11 amended, for the driver of 262145 points (two chunks) and 3 batches. -/
theorem slot_reuse_after_migration_witness :
    1 ≤ Driver.num_input_chunks ⟨18, 262145⟩ ∧ 3 ≤ 3 ∧
    Driver.new 262145 = some ⟨18, 262145⟩ ∧ 2 ≤ Driver.num_input_chunks ⟨18, 262145⟩ ∧
    ∃ s, run_asynchronous ⟨18, 262145⟩ 3 3 = some s ∧
      (∀ k, k + 2 < 3 →
        OutputSlot.select (k + 2) = OutputSlot.select k ∧
        Action.task_s2mm (k + 2) (OutputSlot.select k) ∈ s.trace ∧
        Action.migrate_output_to_host (k + 2) (OutputSlot.select k) ∈ s.trace ∧
        Action.migrate_output_to_host k (OutputSlot.select k) ∈ s.trace ∧
        Action.post_process k (OutputSlot.select k) k ∈ s.trace) ∧
      (∀ k slot pre post, s.trace = pre ++ Action.task_s2mm (k + 2) slot :: post →
        ∃ l1 l2 l3, pre = l1 ++ Action.migrate_output_to_host k (OutputSlot.select k) :: l2 ++
          Action.finish :: l3) ∧
      (∀ k slot pre post, s.trace = pre ++ Action.migrate_output_to_host (k + 2) slot :: post →
        Action.post_process k (OutputSlot.select k) k ∈ pre) ∧
      (2 ≤ Driver.num_input_chunks ⟨18, 262145⟩ →
        ∀ k slot pre post, s.trace = pre ++ Action.task_s2mm (k + 2) slot :: post →
          Action.post_process k (OutputSlot.select k) k ∈ pre) :=
  ⟨by decide, by decide, by decide, by decide,
    slot_reuse_after_migration ⟨18, 262145⟩ (by decide) 3 3 (by decide)⟩

end MsmDriver
